import Mathlib

/-!
A verification model of the response-normalization pipeline
(`processGeminiOutput` in `src/services/geminiService.ts`).

Strings are modelled as `List Char`.  JSON values are modelled by the
inductive type `Json`; JavaScript runtime behaviour (truthiness, the
`String(..)` coercion, property access throwing a `TypeError` on `null`,
insertion-ordered `Map` semantics where `set` on an existing key replaces
the value in place) is modelled explicitly.  `JSON.parse` is modelled by an
executable recursive-descent parser restricted to integer numerals and to
the common string escapes; fallible steps return `Except JsError`.
-/

abbrev Str := List Char

def toChars (s : String) : Str := s.data

inductive Json : Type where
  | null : Json
  | bool : Bool → Json
  | num : Int → Json
  | str : Str → Json
  | arr : List Json → Json
  | obj : List (Str × Json) → Json

mutual

def jsonDecEq : (a b : Json) → Decidable (a = b)
  | Json.null, Json.null => isTrue rfl
  | Json.null, Json.bool _ => isFalse (fun h => Json.noConfusion h)
  | Json.null, Json.num _ => isFalse (fun h => Json.noConfusion h)
  | Json.null, Json.str _ => isFalse (fun h => Json.noConfusion h)
  | Json.null, Json.arr _ => isFalse (fun h => Json.noConfusion h)
  | Json.null, Json.obj _ => isFalse (fun h => Json.noConfusion h)
  | Json.bool _, Json.null => isFalse (fun h => Json.noConfusion h)
  | Json.bool x, Json.bool y =>
      match decEq x y with
      | isTrue h => isTrue (by rw [h])
      | isFalse h => isFalse (fun hh => h (by injection hh))
  | Json.bool _, Json.num _ => isFalse (fun h => Json.noConfusion h)
  | Json.bool _, Json.str _ => isFalse (fun h => Json.noConfusion h)
  | Json.bool _, Json.arr _ => isFalse (fun h => Json.noConfusion h)
  | Json.bool _, Json.obj _ => isFalse (fun h => Json.noConfusion h)
  | Json.num _, Json.null => isFalse (fun h => Json.noConfusion h)
  | Json.num _, Json.bool _ => isFalse (fun h => Json.noConfusion h)
  | Json.num x, Json.num y =>
      match decEq x y with
      | isTrue h => isTrue (by rw [h])
      | isFalse h => isFalse (fun hh => h (by injection hh))
  | Json.num _, Json.str _ => isFalse (fun h => Json.noConfusion h)
  | Json.num _, Json.arr _ => isFalse (fun h => Json.noConfusion h)
  | Json.num _, Json.obj _ => isFalse (fun h => Json.noConfusion h)
  | Json.str _, Json.null => isFalse (fun h => Json.noConfusion h)
  | Json.str _, Json.bool _ => isFalse (fun h => Json.noConfusion h)
  | Json.str _, Json.num _ => isFalse (fun h => Json.noConfusion h)
  | Json.str x, Json.str y =>
      match decEq x y with
      | isTrue h => isTrue (by rw [h])
      | isFalse h => isFalse (fun hh => h (by injection hh))
  | Json.str _, Json.arr _ => isFalse (fun h => Json.noConfusion h)
  | Json.str _, Json.obj _ => isFalse (fun h => Json.noConfusion h)
  | Json.arr _, Json.null => isFalse (fun h => Json.noConfusion h)
  | Json.arr _, Json.bool _ => isFalse (fun h => Json.noConfusion h)
  | Json.arr _, Json.num _ => isFalse (fun h => Json.noConfusion h)
  | Json.arr _, Json.str _ => isFalse (fun h => Json.noConfusion h)
  | Json.arr x, Json.arr y =>
      match jsonListDecEq x y with
      | isTrue h => isTrue (by rw [h])
      | isFalse h => isFalse (fun hh => h (by injection hh))
  | Json.arr _, Json.obj _ => isFalse (fun h => Json.noConfusion h)
  | Json.obj _, Json.null => isFalse (fun h => Json.noConfusion h)
  | Json.obj _, Json.bool _ => isFalse (fun h => Json.noConfusion h)
  | Json.obj _, Json.num _ => isFalse (fun h => Json.noConfusion h)
  | Json.obj _, Json.str _ => isFalse (fun h => Json.noConfusion h)
  | Json.obj _, Json.arr _ => isFalse (fun h => Json.noConfusion h)
  | Json.obj x, Json.obj y =>
      match jsonFieldsDecEq x y with
      | isTrue h => isTrue (by rw [h])
      | isFalse h => isFalse (fun hh => h (by injection hh))

def jsonListDecEq : (a b : List Json) → Decidable (a = b)
  | [], [] => isTrue rfl
  | [], _ :: _ => isFalse (fun h => List.noConfusion h)
  | _ :: _, [] => isFalse (fun h => List.noConfusion h)
  | x :: xs, y :: ys =>
      match jsonDecEq x y with
      | isFalse h => isFalse (fun hh => h (by injection hh))
      | isTrue h1 =>
          match jsonListDecEq xs ys with
          | isTrue h2 => isTrue (by rw [h1, h2])
          | isFalse h2 => isFalse (fun hh => h2 (by injection hh))

def jsonFieldsDecEq : (a b : List (Str × Json)) → Decidable (a = b)
  | [], [] => isTrue rfl
  | [], _ :: _ => isFalse (fun h => List.noConfusion h)
  | _ :: _, [] => isFalse (fun h => List.noConfusion h)
  | (k1, v1) :: xs, (k2, v2) :: ys =>
      match decEq k1 k2 with
      | isFalse h => isFalse (fun hh => h (by injection hh with h1 h2; injection h1))
      | isTrue hk =>
          match jsonDecEq v1 v2 with
          | isFalse h => isFalse (fun hh => h (by injection hh with h1 h2; injection h1))
          | isTrue hv =>
              match jsonFieldsDecEq xs ys with
              | isTrue h2 => isTrue (by rw [hk, hv, h2])
              | isFalse h2 => isFalse (fun hh => h2 (by injection hh))

end

instance : DecidableEq Json := jsonDecEq

/-- JavaScript runtime errors surfaced by the pipeline: a `TypeError`
thrown by property access / method call on an unsuitable value, and the
explicit `new Error("Failed to parse knowledge graph data ...")`. -/
inductive JsError : Type where
  | typeError : JsError
  | parseError : JsError
deriving DecidableEq

/-- Insertion-ordered map lookup (JavaScript `Map.get` / object lookup). -/
def mapGet {κ β : Type} [DecidableEq κ] : List (κ × β) → κ → Option β
  | [], _ => none
  | (k', v) :: rest, k => if k' = k then some v else mapGet rest k

/-- Insertion-ordered map update (JavaScript `Map.set`): an existing key
keeps its position and gets its value replaced; a new key is appended. -/
def mapSet {κ β : Type} [DecidableEq κ] : List (κ × β) → κ → β → List (κ × β)
  | [], k, v => [(k, v)]
  | (k', v') :: rest, k, v =>
      if k' = k then (k, v) :: rest else (k', v') :: mapSet rest k v

/-- JavaScript truthiness of a value. -/
def truthyV : Json → Bool
  | Json.null => false
  | Json.bool b => b
  | Json.num n => !(n = 0 : Bool)
  | Json.str s => !s.isEmpty
  | Json.arr _ => true
  | Json.obj _ => true

/-- Truthiness of a possibly-`undefined` value (`none` = `undefined`). -/
def truthyO : Option Json → Bool
  | none => false
  | some v => truthyV v

/-- Property access on a non-`null` value: objects look the key up,
every other value yields `undefined` (`none`). -/
def jsField : Json → Str → Option Json
  | Json.obj fields, k => mapGet fields k
  | _, _ => none

/-- Property access that may throw: reading a property of `null` raises a
`TypeError` (as in `edge.source` / `support.groundingChunkIndices`). -/
def jsFieldE (j : Json) (k : Str) : Except JsError (Option Json) :=
  match j with
  | Json.null => Except.error JsError.typeError
  | _ => Except.ok (jsField j k)

def intToStr (n : Int) : Str := (toString n).data

def natToStr (n : Nat) : Str := (toString n).data

mutual
/-- The JavaScript `String(v)` coercion on a defined value. -/
def jsToStringV : Json → Str
  | Json.null => toChars "null"
  | Json.bool true => toChars "true"
  | Json.bool false => toChars "false"
  | Json.num n => intToStr n
  | Json.str s => s
  | Json.arr xs => arrToStr xs
  | Json.obj _ => toChars "[object Object]"

/-- `Array.prototype.toString`: elements joined by commas, with `null`
elements contributing the empty string. -/
def arrToStr : List Json → Str
  | [] => []
  | x :: xs =>
      let hd := match x with
        | Json.null => []
        | y => jsToStringV y
      match xs with
      | [] => hd
      | _ :: _ => hd ++ ',' :: arrToStr xs
end

/-- `String(v)` where `v` may be `undefined`. -/
def jsToStringO : Option Json → Str
  | none => toChars "undefined"
  | some v => jsToStringV v

/-- The JavaScript `a || b` fallback on a possibly-`undefined` value. -/
def jsOr (o : Option Json) (d : Json) : Json :=
  match o with
  | some v => if truthyV v then v else d
  | none => d

def webKey : Str := toChars "web"
def uriKey : Str := toChars "uri"
def titleKey : Str := toChars "title"
def gciKey : Str := toChars "groundingChunkIndices"
def idKey : Str := toChars "id"
def srcKey : Str := toChars "source"
def tgtKey : Str := toChars "target"
def nodesKey : Str := toChars "nodes"
def edgesKey : Str := toChars "edges"

/-- The placeholder title used by the citation extractor. -/
def placeholderTitle : Str := toChars "Unknown Source"

/-- A deduplicated citation source (`Source` in the TS data model).  The
`title` keeps the raw chunk value (the code stores `title || "Unknown
Source"` uncoerced), `uri` is the raw (unnormalized) chunk uri. -/
structure Source where
  title : Json
  uri : Str
  citationCount : Nat
deriving DecidableEq

structure GraphData where
  nodes : List Json
  edges : List Json
deriving DecidableEq

structure GeminiResponse where
  graphData : GraphData
  sources : List Source
  searchQueries : List Str
  summary : Str
  groundingSupports : List Json
deriving DecidableEq

/-- Strip one trailing slash from a uri (the dedup-key normalization). -/
def normalizeUri (s : Str) : Str :=
  if s.getLast? = some '/' then s.dropLast else s

/-- Examine one grounding chunk, as the body of the chunk loop does:
`chunk && chunk.web`, read `web.uri` / `web.title`, and accept the chunk
only if the uri is truthy.  A truthy non-string uri makes
`uri.endsWith('/')` throw a `TypeError`.  Returns
`(normalized uri, raw uri, title)` for an accepted chunk. -/
def chunkParse (chunk : Json) : Except JsError (Option (Str × Str × Option Json)) :=
  if truthyV chunk && truthyO (jsField chunk webKey) then
    match jsField chunk webKey with
    | some web =>
        let uri := jsField web uriKey
        if truthyO uri then
          match uri with
          | some (Json.str s) =>
              Except.ok (some (normalizeUri s, s, jsField web titleKey))
          | _ => Except.error JsError.typeError
        else Except.ok (none)
    | none => Except.ok (none)
  else Except.ok (none)

/-- One step of the chunk loop over the source map and the
chunk-index-to-uri map. -/
def chunkStep (m : List (Str × Source)) (im : List (Nat × Str)) (idx : Nat)
    (chunk : Json) : Except JsError (List (Str × Source) × List (Nat × Str)) :=
  match chunkParse chunk with
  | Except.error e => Except.error e
  | Except.ok none => Except.ok (m, im)
  | Except.ok (some (key, s, title)) =>
      let im' := mapSet im idx key
      match mapGet m key with
      | none =>
          Except.ok (mapSet m key ⟨jsOr title (Json.str placeholderTitle), s, 0⟩, im')
      | some ex =>
          if ex.title = Json.str placeholderTitle ∧ truthyO title then
            Except.ok (mapSet m key ⟨jsOr title (Json.str placeholderTitle), s, 0⟩, im')
          else
            Except.ok (m, im')

def chunksGo (m : List (Str × Source)) (im : List (Nat × Str)) (idx : Nat) :
    List Json → Except JsError (List (Str × Source) × List (Nat × Str))
  | [] => Except.ok (m, im)
  | c :: cs =>
      match chunkStep m im idx c with
      | Except.error e => Except.error e
      | Except.ok (m', im') => chunksGo m' im' (idx + 1) cs

/-- Step 1 of the pipeline: the citation extractor (`groundingChunks`
loop), producing the deduplicated source map and the positional
chunk-index-to-uri map. -/
def processChunks (chunks : List Json) :
    Except JsError (List (Str × Source) × List (Nat × Str)) :=
  chunksGo [] [] 0 chunks

/-- Resolve one element of `groundingChunkIndices`: `Map.get` only hits
when the element is a (non-negative integer) number key present in the
index map; the `if (uri)` guard then skips a falsy mapped uri (the empty
normalized URI, arising from a chunk uri of exactly "/"); otherwise the
source for the mapped uri, if any, gets its `citationCount` incremented
in place. -/
def incrFor (im : List (Nat × Str)) (m : List (Str × Source)) (ix : Json) :
    List (Str × Source) :=
  match ix with
  | Json.num i =>
      if 0 ≤ i then
        match mapGet im i.toNat with
        | some uri =>
            if uri.isEmpty then m
            else
              match mapGet m uri with
              | some src => mapSet m uri ⟨src.title, src.uri, src.citationCount + 1⟩
              | none => m
        | none => m
      else m
  | _ => m

/-- One step of the support loop: `support.groundingChunkIndices` throws
on a `null` support; a truthy non-array value makes `.forEach` throw. -/
def supportStep (im : List (Nat × Str)) (m : List (Str × Source))
    (support : Json) : Except JsError (List (Str × Source)) :=
  match jsFieldE support gciKey with
  | Except.error e => Except.error e
  | Except.ok gciO =>
      if truthyO gciO then
        match gciO with
        | some (Json.arr idxs) => Except.ok (idxs.foldl (incrFor im) m)
        | _ => Except.error JsError.typeError
      else Except.ok m

def supportsGo (im : List (Nat × Str)) (m : List (Str × Source)) :
    List Json → Except JsError (List (Str × Source) × List Json)
  | [] => Except.ok (m, [])
  | s :: ss =>
      match supportStep im m s with
      | Except.error e => Except.error e
      | Except.ok m' =>
          match supportsGo im m' ss with
          | Except.error e => Except.error e
          | Except.ok (m'', rest) => Except.ok (m'', s :: rest)

/-- Step 2 of the pipeline: the citation support linker.  Every support is
pushed into `cleanSupports` and the citation counts are updated. -/
def processSupports (supports : List Json) (im : List (Nat × Str))
    (m : List (Str × Source)) :
    Except JsError (List (Str × Source) × List Json) :=
  supportsGo im m supports

/-- Substring search: `hasPfx p s` holds when `p` is a prefix of `s`. -/
def hasPfx : Str → Str → Bool
  | [], _ => true
  | _ :: _, [] => false
  | p :: ps, c :: cs => p = c && hasPfx ps cs

/-- Index of the first occurrence of `pat` in `s` (JavaScript
`String.indexOf` for a fixed pattern), `none` when absent. -/
def findSub (pat : Str) : Str → Option Nat
  | [] => if pat = [] then some 0 else none
  | c :: rest =>
      if hasPfx pat (c :: rest) then some 0
      else (findSub pat rest).map (· + 1)

def containsSub (pat s : Str) : Bool := (findSub pat s).isSome

/-- Whitespace for `trim` / the regex `\s` (the common cases). -/
def wsChar (c : Char) : Bool := c = ' ' || c = '\t' || c = '\n' || c = '\r'

def ltrim (s : Str) : Str := s.dropWhile wsChar

def rtrim (s : Str) : Str := (s.reverse.dropWhile wsChar).reverse

/-- JavaScript `String.prototype.trim`. -/
def trimStr (s : Str) : Str := rtrim (ltrim s)

def fenceTag : Str := toChars "```"

def fenceJsonTag : Str := toChars "```json"

def lbrace : Char := '\x7b'

def rbrace : Char := '\x7d'

/-- The regex match `/TAG\s*([\s\S]*?)\s*``` /`: the matched fence starts
at the first occurrence of `TAG`, and because the lazy group stops at the
earliest closing fence, the capture is the text up to the first subsequent
"```" with surrounding whitespace stripped.  (A first `TAG` occurrence
with no subsequent "```" admits no later viable start, since "```" is a
prefix of `TAG` and `TAG` has no self-overlap, so the whole regex fails.)
Returns `(match index, capture)`. -/
def matchFence (tag : Str) (s : Str) : Option (Nat × Str) :=
  match findSub tag s with
  | none => none
  | some i =>
      let rest := s.drop (i + tag.length)
      match findSub fenceTag rest with
      | none => none
      | some f => some (i, trimStr (rest.take f))

/-- Step 3 of the pipeline: the payload isolator.  Tries the json-tagged
fence, then a generic fence (everything before the match is the trimmed
summary), then falls back to the first `\x7b` when it is at a positive
index, else the whole trimmed text.  Returns `(payload candidate,
summary)`. -/
def isolate (text : Str) : Str × Str :=
  match matchFence fenceJsonTag text with
  | some (i, cap) => (cap, trimStr (text.take i))
  | none =>
      match matchFence fenceTag text with
      | some (i, cap) => (cap, trimStr (text.take i))
      | none =>
          match findSub [lbrace] text with
          | some fb =>
              if 0 < fb then (text.drop fb, trimStr (text.take fb))
              else (trimStr text, [])
          | none => (trimStr text, [])

/-- JavaScript `String.lastIndexOf` for a single character. -/
def lastIdxOf (c : Char) (s : Str) : Option Nat :=
  match findSub [c] s.reverse with
  | none => none
  | some i => some (s.length - 1 - i)

/-- The defensive re-trim before parsing: narrow to the span from the
first `\x7b` to the last `\x7d` when both exist in that order. -/
def narrowBraces (s : Str) : Str :=
  match findSub [lbrace] s, lastIdxOf rbrace s with
  | some f, some l => if f < l then (s.take (l + 1)).drop f else s
  | some _, none => s
  | none, _ => s

def digitVal (c : Char) : Option Nat :=
  if '0' ≤ c ∧ c ≤ '9' then some (c.toNat - '0'.toNat) else none

def parseDigitsAux (acc : Nat) : Str → Nat × Str
  | [] => (acc, [])
  | c :: cs =>
      match digitVal c with
      | some d => parseDigitsAux (acc * 10 + d) cs
      | none => (acc, c :: cs)

/-- An integer numeral after its first digit: JSON rejects leading
zeros, so a first digit `0` must not be followed by another digit. -/
def parseIntLit (d : Char) (ds : Str) : Option (Nat × Str) :=
  match digitVal d with
  | none => none
  | some dv =>
      if dv = 0 then
        match ds with
        | c :: _ => if (digitVal c).isSome then none else some (0, ds)
        | [] => some (0, [])
      else some (parseDigitsAux dv ds)

/-- String-literal body parser (after the opening quote), supporting the
common escapes; raw control characters are rejected as `JSON.parse`
rejects them, and `\u` escapes are out of the modelled fragment. -/
def parseStrLit : Str → Option (Str × Str)
  | [] => none
  | '"' :: rest => some ([], rest)
  | '\\' :: c :: rest =>
      let e : Option Char :=
        if c = '"' then some '"'
        else if c = '\\' then some '\\'
        else if c = '/' then some '/'
        else if c = 'n' then some '\n'
        else if c = 't' then some '\t'
        else if c = 'r' then some '\r'
        else none
      match e with
      | none => none
      | some ch =>
          match parseStrLit rest with
          | none => none
          | some (s, r) => some (ch :: s, r)
  | c :: rest =>
      if c.toNat < 32 then none
      else
        match parseStrLit rest with
        | none => none
        | some (s, r) => some (c :: s, r)

mutual

/-- Recursive-descent value parser modelling `JSON.parse` on the fragment
with integer numerals.  `fuel` bounds the recursion depth; every
recursive call consumes at least one input character first, so
`length + 1` fuel suffices. -/
def parseVal : Nat → Str → Option (Json × Str)
  | 0, _ => none
  | fuel + 1, s =>
      match ltrim s with
      | [] => none
      | c :: rest =>
          if c = '"' then
            match parseStrLit rest with
            | none => none
            | some (cs, r) => some (Json.str cs, r)
          else if c = lbrace then parseObjFields fuel rest []
          else if c = '[' then parseArrElems fuel rest []
          else if c = '-' then
            match rest with
            | d :: ds =>
                match parseIntLit d ds with
                | some p => some (Json.num (-(p.1 : Int)), p.2)
                | none => none
            | [] => none
          else if hasPfx (toChars "true") (c :: rest) then
            some (Json.bool true, (c :: rest).drop 4)
          else if hasPfx (toChars "false") (c :: rest) then
            some (Json.bool false, (c :: rest).drop 5)
          else if hasPfx (toChars "null") (c :: rest) then
            some (Json.null, (c :: rest).drop 4)
          else
            match parseIntLit c rest with
            | some p => some (Json.num (p.1 : Int), p.2)
            | none => none

/-- Object members after the opening brace; duplicate keys overwrite in
place (JavaScript object semantics). -/
def parseObjFields : Nat → Str → List (Str × Json) → Option (Json × Str)
  | 0, _, _ => none
  | fuel + 1, s, acc =>
      match ltrim s with
      | [] => none
      | c :: rest =>
          if c = rbrace ∧ acc = [] then some (Json.obj [], rest)
          else if c = '"' then
            match parseStrLit rest with
            | none => none
            | some (k, r1) =>
                match ltrim r1 with
                | ':' :: r2 =>
                    match parseVal fuel r2 with
                    | none => none
                    | some (v, r3) =>
                        match ltrim r3 with
                        | ',' :: r4 => parseObjFields fuel r4 (mapSet acc k v)
                        | c2 :: r4 =>
                            if c2 = rbrace then some (Json.obj (mapSet acc k v), r4)
                            else none
                        | [] => none
                | _ => none
          else none

/-- Array elements after the opening bracket. -/
def parseArrElems : Nat → Str → List Json → Option (Json × Str)
  | 0, _, _ => none
  | fuel + 1, s, acc =>
      match ltrim s with
      | ']' :: rest =>
          if acc = [] then some (Json.arr [], rest) else none
      | _ =>
          match parseVal fuel s with
          | none => none
          | some (v, r1) =>
              match ltrim r1 with
              | ',' :: r2 => parseArrElems fuel r2 (acc ++ [v])
              | ']' :: r2 => some (Json.arr (acc ++ [v]), r2)
              | _ => none

end

/-- `JSON.parse` on the modelled fragment: a full-input value parse with
surrounding whitespace tolerated; `none` models a thrown `SyntaxError`. -/
def parseJson (s : Str) : Option Json :=
  match parseVal (s.length + 1) s with
  | none => none
  | some (j, rest) => if ltrim rest = [] then some j else none

/-- The node-loop guard `node && node.id`. -/
def nodeKeep (n : Json) : Bool := truthyV n && truthyO (jsField n idKey)

/-- The node dedup key `String(node.id)`. -/
def nodeKey (n : Json) : Str := jsToStringO (jsField n idKey)

/-- One step of the node dedup loop: `uniqueNodes.set(String(node.id),
node)` for a node passing the guard. -/
def nodeStep (m : List (Str × Json)) (n : Json) : List (Str × Json) :=
  if nodeKeep n then mapSet m (nodeKey n) n else m

/-- Step 5a of the pipeline: deduplicate nodes by coerced id. -/
def dedupNodes (ns : List Json) : List (Str × Json) := ns.foldl nodeStep []

/-- `Array.from(uniqueNodes.values())`. -/
def dedupNodesList (ns : List Json) : List Json := (dedupNodes ns).map Prod.snd

/-- `new Set(cleanedNodes.map(n => n.id))`: the raw, uncoerced id values
of the surviving nodes (`none` would be `undefined`). -/
def nodeIdsOf (cn : List Json) : List (Option Json) :=
  cn.map (fun n => jsField n idKey)

/-- `String(edge.source)` (property access on a non-null edge). -/
def edgeSrcStr (e : Json) : Str := jsToStringO (jsField e srcKey)

/-- `String(edge.target)`. -/
def edgeTgtStr (e : Json) : Str := jsToStringO (jsField e tgtKey)

/-- The edge filter test `nodeIds.has(sourceId) && nodeIds.has(targetId)`:
a `Set.has` with a string argument only hits an element that is that very
string (strict, value-and-type equality against the raw ids). -/
def keptEdge (ids : List (Option Json)) (e : Json) : Bool :=
  decide (some (Json.str (edgeSrcStr e)) ∈ ids) &&
  decide (some (Json.str (edgeTgtStr e)) ∈ ids)

/-- Object spread `{...edge}`: objects contribute their fields, strings
their indexed characters, other primitives nothing. -/
def spreadObj : Json → List (Str × Json)
  | Json.obj fields => fields
  | Json.str s => (s.enum).map (fun p => (natToStr p.1, Json.str [p.2]))
  | _ => []

/-- The kept-edge rewrite `{...edge, source: sourceId, target: targetId}`. -/
def rewriteEdge (e : Json) : Json :=
  Json.obj
    (mapSet (mapSet (spreadObj e) srcKey (Json.str (edgeSrcStr e)))
      tgtKey (Json.str (edgeTgtStr e)))

/-- Step 5b of the pipeline: the edge filter loop.  Reading
`edge.source` on a `null` edge throws a `TypeError`. -/
def edgePass (ids : List (Option Json)) : List Json → Except JsError (List Json)
  | [] => Except.ok []
  | e :: es =>
      if e = Json.null then Except.error JsError.typeError
      else
        match edgePass ids es with
        | Except.error err => Except.error err
        | Except.ok rest =>
            if keptEdge ids e then Except.ok (rewriteEdge e :: rest)
            else Except.ok rest

/-- Steps 4-5 of the pipeline on the parsed `nodes` / `edges` arrays:
dedup nodes, then filter edges against the surviving raw id set. -/
def sanitizeGraph (ns es : List Json) : Except JsError (List Json × List Json) :=
  let cn := dedupNodesList ns
  match edgePass (nodeIdsOf cn) es with
  | Except.error e => Except.error e
  | Except.ok ce => Except.ok (cn, ce)

/-- The shape validation `!graphData || !Array.isArray(graphData.nodes)
|| !Array.isArray(graphData.edges)`: `some` exactly when the parsed value
is truthy and carries array `nodes` and `edges` fields. -/
def shapeFields (gd : Json) : Option (List Json × List Json) :=
  if truthyV gd then
    match jsField gd nodesKey, jsField gd edgesKey with
    | some (Json.arr ns), some (Json.arr es) => some (ns, es)
    | _, _ => none
  else none

/-- The whole pipeline `processGeminiOutput(text, groundingChunks,
groundingSupports, searchQueries)` (for array-shaped chunk/support
inputs, for which the two `Array.isArray` input guards pass). -/
def processGeminiOutput (text : Str) (chunks supports : List Json)
    (queries : List Str) : Except JsError GeminiResponse :=
  match processChunks chunks with
  | Except.error e => Except.error e
  | Except.ok (m, im) =>
      match processSupports supports im m with
      | Except.error e => Except.error e
      | Except.ok (m2, cleanSupports) =>
          let sources := m2.map Prod.snd
          let pr := isolate text
          let summary := pr.2
          let narrowed := narrowBraces pr.1
          match parseJson narrowed with
          | none =>
              if 0 < sources.length then
                Except.ok ⟨⟨[], []⟩, sources, queries, summary, cleanSupports⟩
              else Except.error JsError.parseError
          | some gd =>
              match shapeFields gd with
              | none => Except.ok ⟨⟨[], []⟩, sources, queries, summary, cleanSupports⟩
              | some (ns, es) =>
                  match sanitizeGraph ns es with
                  | Except.error e => Except.error e
                  | Except.ok (cn, ce) =>
                      Except.ok ⟨⟨cn, ce⟩, sources, queries, summary, cleanSupports⟩

/-- First-occurrence key order: fold new keys onto the end, keep the
position of keys already seen.  This is the key order both `Map`-based
dedups produce. -/
def dedupFrom (acc : List Str) (ks : List Str) : List Str :=
  ks.foldl (fun a k => if k ∈ a then a else a ++ [k]) acc

/-- The last node in the list passing the guard and coercing to key `k`
(specification-side description of the `Map.set` overwrite). -/
def lastMatch (k : Str) : List Json → Option Json
  | [] => none
  | n :: ns =>
      match lastMatch k ns with
      | some x => some x
      | none => if nodeKeep n ∧ nodeKey n = k then some n else none

/-- The dedup keys of the guard-passing nodes, in input order. -/
def validNodeKeys (ns : List Json) : List Str :=
  (ns.filter nodeKeep).map nodeKey

/-- The accepted chunks of a chunk list, as
`(normalized uri, raw uri, title)` triples in input order (with the same
`TypeError` behaviour as the extractor itself). -/
def chunkValidInfos : List Json → Except JsError (List (Str × Str × Option Json))
  | [] => Except.ok []
  | c :: cs =>
      match chunkParse c with
      | Except.error e => Except.error e
      | Except.ok none => chunkValidInfos cs
      | Except.ok (some i) =>
          match chunkValidInfos cs with
          | Except.error e => Except.error e
          | Except.ok rest => Except.ok (i :: rest)

/-- A support entry the linker can process without throwing: non-`null`,
and its `groundingChunkIndices`, when truthy, an array. -/
def supportSafe (s : Json) : Bool :=
  !(decide (s = Json.null)) &&
    (match jsField s gciKey with
     | some (Json.arr _) => true
     | some v => !truthyV v
     | none => true)

/-- The effect of one safe support on the source map: a support whose
`groundingChunkIndices` is an array folds `incrFor` over the indices,
anything else (falsy / absent field) leaves the map unchanged. -/
def supportStepPure (im : List (Nat × Str)) (m : List (Str × Source))
    (s : Json) : List (Str × Source) :=
  match jsField s gciKey with
  | some (Json.arr idxs) => idxs.foldl (incrFor im) m
  | _ => m

theorem mapGet_mapSet_self {κ β : Type} [DecidableEq κ] (m : List (κ × β))
    (k : κ) (v : β) : mapGet (mapSet m k v) k = some v := by
  induction m with
  | nil => simp [mapSet, mapGet]
  | cons hd tl ih =>
      obtain ⟨k', v'⟩ := hd
      by_cases h : k' = k
      · simp [mapSet, mapGet, h]
      · simp [mapSet, mapGet, h, ih]

theorem mapGet_mapSet_ne {κ β : Type} [DecidableEq κ] (m : List (κ × β))
    (k k' : κ) (v : β) (h : k' ≠ k) :
    mapGet (mapSet m k v) k' = mapGet m k' := by
  have h' : k ≠ k' := Ne.symm h
  induction m with
  | nil => simp [mapSet, mapGet, h']
  | cons hd tl ih =>
      obtain ⟨k0, v0⟩ := hd
      by_cases h0 : k0 = k
      · subst h0
        simp [mapSet, mapGet, h']
      · simp only [mapSet, if_neg h0, mapGet]
        by_cases h1 : k0 = k'
        · simp [h1]
        · simp [h1, ih]

theorem mapGet_eq_none_iff {κ β : Type} [DecidableEq κ] (m : List (κ × β))
    (k : κ) : mapGet m k = none ↔ k ∉ m.map Prod.fst := by
  induction m with
  | nil => simp [mapGet]
  | cons hd tl ih =>
      obtain ⟨k', v'⟩ := hd
      by_cases h : k' = k
      · simp [mapGet, h]
      · have h' : ¬k = k' := fun hh => h hh.symm
        simp [mapGet, h, ih, h']

theorem mapSet_fst_of_get_some {κ β : Type} [DecidableEq κ] (m : List (κ × β))
    (k : κ) (v w : β) (h : mapGet m k = some w) :
    (mapSet m k v).map Prod.fst = m.map Prod.fst := by
  induction m with
  | nil => simp [mapGet] at h
  | cons hd tl ih =>
      obtain ⟨k', v'⟩ := hd
      by_cases h0 : k' = k
      · simp [mapSet, mapGet, h0]
      · simp [mapGet, h0] at h
        simp [mapSet, mapGet, h0, ih h]

theorem mapSet_fst_of_get_none {κ β : Type} [DecidableEq κ] (m : List (κ × β))
    (k : κ) (v : β) (h : mapGet m k = none) :
    (mapSet m k v).map Prod.fst = m.map Prod.fst ++ [k] := by
  induction m with
  | nil => simp [mapSet]
  | cons hd tl ih =>
      obtain ⟨k', v'⟩ := hd
      by_cases h0 : k' = k
      · simp [mapGet, h0] at h
      · simp [mapGet, h0] at h
        simp [mapSet, mapGet, h0, ih h]

theorem mem_mapSet {κ β : Type} [DecidableEq κ] (m : List (κ × β))
    (k : κ) (v : β) (p : κ × β) (h : p ∈ mapSet m k v) :
    p ∈ m ∨ p = (k, v) := by
  induction m with
  | nil =>
      simp [mapSet] at h
      exact Or.inr h
  | cons hd tl ih =>
      obtain ⟨k', v'⟩ := hd
      by_cases h0 : k' = k
      · simp [mapSet, h0] at h
        rcases h with h | h
        · exact Or.inr h
        · exact Or.inl (List.mem_cons_of_mem _ h)
      · simp [mapSet, h0] at h
        rcases h with h | h
        · exact Or.inl (by simp [h])
        · rcases ih h with h1 | h1
          · exact Or.inl (List.mem_cons_of_mem _ h1)
          · exact Or.inr h1

theorem mapGet_mem {κ β : Type} [DecidableEq κ] (m : List (κ × β)) (k : κ)
    (v : β) (h : mapGet m k = some v) : (k, v) ∈ m := by
  induction m with
  | nil => simp [mapGet] at h
  | cons hd tl ih =>
      obtain ⟨k', v'⟩ := hd
      by_cases h0 : k' = k
      · simp [mapGet, h0] at h
        simp [h0, h]
      · simp [mapGet, h0] at h
        exact List.mem_cons_of_mem _ (ih h)

theorem dedupFrom_nodup (ks : List Str) :
    ∀ acc : List Str, acc.Nodup → (dedupFrom acc ks).Nodup := by
  induction ks with
  | nil => intro acc h; simpa [dedupFrom] using h
  | cons k ks ih =>
      intro acc h
      by_cases hk : k ∈ acc
      · simpa [dedupFrom, hk] using ih acc h
      · have h2 : (acc ++ [k]).Nodup := by
          simp [List.nodup_append, h, hk]
        simpa [dedupFrom, hk] using ih (acc ++ [k]) h2

theorem mapGet_nodeStep (m : List (Str × Json)) (n : Json) (k : Str) :
    mapGet (nodeStep m n) k =
      if nodeKeep n ∧ nodeKey n = k then some n else mapGet m k := by
  by_cases hkeep : nodeKeep n
  · by_cases hkey : nodeKey n = k
    · simp [nodeStep, hkeep, hkey, mapGet_mapSet_self]
    · simp [nodeStep, hkeep, hkey,
        mapGet_mapSet_ne m (nodeKey n) k n (fun hh => hkey hh.symm)]
  · simp [nodeStep, hkeep]

theorem dedupFrom_cons (acc : List Str) (k : Str) (ks : List Str) :
    dedupFrom acc (k :: ks) =
      dedupFrom (if k ∈ acc then acc else acc ++ [k]) ks := rfl

theorem foldl_nodeStep_get (ns : List Json) :
    ∀ (m : List (Str × Json)) (k : Str),
      mapGet (ns.foldl nodeStep m) k =
        (match lastMatch k ns with
         | some x => some x
         | none => mapGet m k) := by
  induction ns with
  | nil => intro m k; simp [lastMatch]
  | cons n ns ih =>
      intro m k
      rw [List.foldl_cons, ih (nodeStep m n) k]
      rcases hlast : lastMatch k ns with _ | x
      · rw [mapGet_nodeStep m n k]
        by_cases hc : nodeKeep n = true ∧ nodeKey n = k
        · simp [lastMatch, hlast, hc]
        · simp [lastMatch, hlast, hc]
      · simp [lastMatch, hlast]

theorem foldl_nodeStep_fst (ns : List Json) :
    ∀ m : List (Str × Json),
      ((ns.foldl nodeStep m).map Prod.fst) =
        dedupFrom (m.map Prod.fst) (validNodeKeys ns) := by
  induction ns with
  | nil => intro m; simp [dedupFrom, validNodeKeys]
  | cons n ns ih =>
      intro m
      by_cases hkeep : nodeKeep n
      · have hv : validNodeKeys (n :: ns) = nodeKey n :: validNodeKeys ns := by
          simp [validNodeKeys, hkeep]
        rcases hget : mapGet m (nodeKey n) with _ | w
        · have hmem : nodeKey n ∉ m.map Prod.fst :=
            (mapGet_eq_none_iff m (nodeKey n)).1 hget
          rw [List.foldl_cons]
          rw [ih (nodeStep m n)]
          simp only [nodeStep, hkeep, if_pos]
          rw [mapSet_fst_of_get_none m (nodeKey n) n hget]
          rw [hv, dedupFrom_cons, if_neg hmem]
        · have hmem : nodeKey n ∈ m.map Prod.fst := by
            have := mapGet_mem m (nodeKey n) w hget
            exact List.mem_map.2 ⟨(nodeKey n, w), this, rfl⟩
          rw [List.foldl_cons]
          rw [ih (nodeStep m n)]
          simp only [nodeStep, hkeep, if_pos]
          rw [mapSet_fst_of_get_some m (nodeKey n) n w hget]
          rw [hv, dedupFrom_cons, if_pos hmem]
      · have hv : validNodeKeys (n :: ns) = validNodeKeys ns := by
          simp [validNodeKeys, hkeep]
        rw [List.foldl_cons]
        rw [ih (nodeStep m n)]
        simp [nodeStep, hkeep, hv]

/-- Claim C2 (amended): nodes are deduplicated by id coerced to string;
the output has exactly one node per coerced id (the key list has no
duplicates), positioned at the id's first occurrence, but the node stored
for a duplicated id is the LAST occurrence, not the first; a node with a
missing or falsy (empty) id is dropped. -/
theorem claim2_dedup_last_occurrence_wins (ns : List Json) :
    ((dedupNodes ns).map Prod.fst = dedupFrom [] (validNodeKeys ns)) ∧
    ((dedupNodes ns).map Prod.fst).Nodup ∧
    (∀ k, mapGet (dedupNodes ns) k = lastMatch k ns) := by
  refine ⟨foldl_nodeStep_fst ns [], ?_, ?_⟩
  · rw [show (dedupNodes ns) = ns.foldl nodeStep [] from rfl,
      foldl_nodeStep_fst ns []]
    exact dedupFrom_nodup _ _ (by simp)
  · intro k
    rw [show (dedupNodes ns) = ns.foldl nodeStep [] from rfl,
      foldl_nodeStep_get ns [] k]
    rcases lastMatch k ns with _ | x <;> simp [mapGet]

/-- Claim C2, counterexample to the claim as stated: two parsed nodes
share the coerced id "1" (first labelled "A", second labelled "B"); the
pipeline's output contains exactly one node for that id, and it is the
SECOND node (label "B"), not the first-occurring one. -/
theorem claim2_counterexample :
    processGeminiOutput
        (toChars "\x7b\"nodes\":[\x7b\"id\":\"1\",\"label\":\"A\"\x7d,\x7b\"id\":\"1\",\"label\":\"B\"\x7d],\"edges\":[]\x7d")
        [] [] [] =
      Except.ok
        ⟨⟨[Json.obj [(idKey, Json.str (toChars "1")),
                     (toChars "label", Json.str (toChars "B"))]], []⟩,
          [], [], [], []⟩ ∧
    Json.obj [(idKey, Json.str (toChars "1")),
              (toChars "label", Json.str (toChars "B"))] ≠
      Json.obj [(idKey, Json.str (toChars "1")),
                (toChars "label", Json.str (toChars "A"))] := by
  exact ⟨rfl, by decide⟩

theorem supportStep_safe (im : List (Nat × Str)) (m : List (Str × Source))
    (s : Json) (h : supportSafe s = true) :
    supportStep im m s = Except.ok (supportStepPure im m s) := by
  have hnn : ¬s = Json.null := by
    intro hh
    rw [hh] at h
    simp [supportSafe] at h
  have he : jsFieldE s gciKey = Except.ok (jsField s gciKey) := by
    cases s <;> first | exact absurd rfl hnn | rfl
  rcases hf : jsField s gciKey with _ | v
  · simp [supportStep, he, hf, truthyO, supportStepPure]
  · rcases v with _ | b | n | cs | xs | fs
    · simp [supportStep, he, hf, truthyO, truthyV, supportStepPure]
    · rw [supportSafe, hf] at h
      rcases b with _ | _
      · simp [supportStep, he, hf, truthyO, truthyV, supportStepPure]
      · simp [truthyV] at h
    · rw [supportSafe, hf] at h
      simp [truthyV] at h
      simp [supportStep, he, hf, truthyO, truthyV, h, supportStepPure]
    · rw [supportSafe, hf] at h
      simp [truthyV] at h
      simp [supportStep, he, hf, truthyO, truthyV, h, supportStepPure]
    · simp [supportStep, he, hf, truthyO, truthyV, supportStepPure]
    · rw [supportSafe, hf] at h
      simp [truthyV] at h

/-- Claim C4 (amended): the support linker passes every input support
through unchanged into the output support list, and completes without
error, PROVIDED each entry is processable: a `null`/`undefined` entry (or
a truthy non-array `groundingChunkIndices`) makes the property access /
`forEach` throw a `TypeError` that aborts the whole pipeline.  Part one:
on safe inputs the linker succeeds and returns the input list unchanged;
part two: whenever the linker succeeds, the output support list equals
the input sequence. -/
theorem claim4_support_passthrough :
    (∀ (supports : List Json) (im : List (Nat × Str)) (m : List (Str × Source)),
        (∀ s ∈ supports, supportSafe s = true) →
        processSupports supports im m =
          Except.ok (supports.foldl (supportStepPure im) m, supports)) ∧
    (∀ (supports : List Json) (im : List (Nat × Str)) (m m2 : List (Str × Source))
        (out : List Json),
        processSupports supports im m = Except.ok (m2, out) → out = supports) := by
  constructor
  · intro supports
    induction supports with
    | nil => intro im m h; rfl
    | cons s ss ih =>
        intro im m h
        have hs : supportSafe s = true := h s (by simp)
        have hss : ∀ x ∈ ss, supportSafe x = true :=
          fun x hx => h x (by simp [hx])
        have ih' := ih im (supportStepPure im m s) hss
        simp only [processSupports] at ih' ⊢
        rw [supportsGo]
        simp only [supportStep_safe im m s hs, ih', List.foldl_cons]
  · intro supports
    induction supports with
    | nil =>
        intro im m m2 out h
        simp only [processSupports, supportsGo] at h
        exact (congrArg Prod.snd (Except.ok.inj h)).symm
    | cons s ss ih =>
        intro im m m2 out h
        simp only [processSupports, supportsGo] at h
        rcases hstep : supportStep im m s with e | m'
        · simp only [hstep] at h
          exact Except.noConfusion h
        · simp only [hstep] at h
          rcases hgo : supportsGo im m' ss with e | pr
          · simp only [hgo] at h
            exact Except.noConfusion h
          · obtain ⟨m'', rest⟩ := pr
            simp only [hgo] at h
            have hout : out = s :: rest :=
              (congrArg Prod.snd (Except.ok.inj h)).symm
            rw [hout, ih im m' m'' rest hgo]

/-- Claim C4, counterexample to the claim as stated: on the input
sequence `[null]` the support linker does not complete — reading
`support.groundingChunkIndices` on the `null` entry throws a
`TypeError` — so a malformed entry is not skipped and does abort the
pipeline. -/
theorem claim4_counterexample :
    processSupports [Json.null] [] [] = Except.error JsError.typeError ∧
    processGeminiOutput (toChars "\x7b\"nodes\":[],\"edges\":[]\x7d") []
        [Json.null] [] = Except.error JsError.typeError := ⟨rfl, rfl⟩

/-- Claim C4 witness: a concrete run of the amended theorem on a support
list holding a malformed-but-safe entry (a bare number) and a well-formed
support; the linker succeeds and passes both through unchanged. -/
theorem claim4_witness :
    processSupports [Json.num 5, Json.obj [(gciKey, Json.arr [Json.num 0])]] [] [] =
      Except.ok ([], [Json.num 5, Json.obj [(gciKey, Json.arr [Json.num 0])]]) :=
  claim4_support_passthrough.1
    [Json.num 5, Json.obj [(gciKey, Json.arr [Json.num 0])]] [] []
    (by decide)

theorem chunkParse_some_inv (c : Json) (key s : Str) (t : Option Json)
    (h : chunkParse c = Except.ok (some (key, s, t))) :
    key = normalizeUri s ∧ s ≠ [] := by
  by_cases hg : (truthyV c && truthyO (jsField c webKey)) = true
  · simp only [chunkParse, if_pos hg] at h
    rcases hw : jsField c webKey with _ | web
    · simp only [hw] at h
      simp at h
    · simp only [hw] at h
      by_cases hu : truthyO (jsField web uriKey) = true
      · simp only [if_pos hu] at h
        rcases hv : jsField web uriKey with _ | v
        · rw [hv] at hu
          simp [truthyO] at hu
        · rcases v with _ | b | n | s0 | xs | fs
          · simp only [hv] at h
            exact Except.noConfusion h
          · simp only [hv] at h
            exact Except.noConfusion h
          · simp only [hv] at h
            exact Except.noConfusion h
          · simp only [hv] at h
            have h1 := Option.some.inj (Except.ok.inj h)
            have hk : key = normalizeUri s0 := (congrArg Prod.fst h1).symm
            have hs : s = s0 :=
              (congrArg (fun p => p.2.1) h1).symm
            rw [hv] at hu
            simp only [truthyO, truthyV] at hu
            refine ⟨by rw [hk, hs], ?_⟩
            rw [hs]
            intro hnil
            rw [hnil] at hu
            simp at hu
          · simp only [hv] at h
            exact Except.noConfusion h
          · simp only [hv] at h
            exact Except.noConfusion h
      · simp only [if_neg hu] at h
        simp at h
  · simp only [chunkParse, if_neg hg] at h
    simp at h

theorem chunkStep_inv (m : List (Str × Source)) (im : List (Nat × Str))
    (idx : Nat) (c : Json) (m' : List (Str × Source)) (im' : List (Nat × Str))
    (h : chunkStep m im idx c = Except.ok (m', im')) :
    (chunkParse c = Except.ok none ∧ m' = m ∧ im' = im) ∨
    ∃ key s title, chunkParse c = Except.ok (some (key, s, title)) ∧
      im' = mapSet im idx key ∧
      ((mapGet m key = none ∧
          m' = mapSet m key ⟨jsOr title (Json.str placeholderTitle), s, 0⟩) ∨
       (∃ ex, mapGet m key = some ex ∧
          ((ex.title = Json.str placeholderTitle ∧ truthyO title = true ∧
              m' = mapSet m key ⟨jsOr title (Json.str placeholderTitle), s, 0⟩) ∨
           (¬(ex.title = Json.str placeholderTitle ∧ truthyO title = true) ∧
              m' = m)))) := by
  rcases hp : chunkParse c with e | oi
  · simp only [chunkStep, hp] at h
    exact Except.noConfusion h
  · rcases oi with _ | i
    · simp only [chunkStep, hp] at h
      have h1 := Except.ok.inj h
      exact Or.inl ⟨rfl, (congrArg Prod.fst h1).symm, (congrArg Prod.snd h1).symm⟩
    · obtain ⟨key, s, title⟩ := i
      rcases hg : mapGet m key with _ | ex
      · simp only [chunkStep, hp, hg] at h
        have h1 := Except.ok.inj h
        exact Or.inr ⟨key, s, title, rfl, (congrArg Prod.snd h1).symm,
          Or.inl ⟨hg, (congrArg Prod.fst h1).symm⟩⟩
      · by_cases hc : ex.title = Json.str placeholderTitle ∧ truthyO title = true
        · simp only [chunkStep, hp, hg, if_pos hc] at h
          have h1 := Except.ok.inj h
          exact Or.inr ⟨key, s, title, rfl, (congrArg Prod.snd h1).symm,
            Or.inr ⟨ex, hg, Or.inl ⟨hc.1, hc.2, (congrArg Prod.fst h1).symm⟩⟩⟩
        · simp only [chunkStep, hp, hg, if_neg hc] at h
          have h1 := Except.ok.inj h
          exact Or.inr ⟨key, s, title, rfl, (congrArg Prod.snd h1).symm,
            Or.inr ⟨ex, hg, Or.inr ⟨hc, (congrArg Prod.fst h1).symm⟩⟩⟩

theorem chunkStep_preserves (m : List (Str × Source)) (im : List (Nat × Str))
    (idx : Nat) (c : Json) (m' : List (Str × Source)) (im' : List (Nat × Str))
    (k : Str) (src : Source)
    (hstep : chunkStep m im idx c = Except.ok (m', im'))
    (hget : mapGet m k = some src)
    (htitle : src.title ≠ Json.str placeholderTitle) :
    mapGet m' k = some src := by
  rcases chunkStep_inv m im idx c m' im' hstep with ⟨_, hm, _⟩ | ⟨key, s, title, _, _, hrest⟩
  · rw [hm]; exact hget
  · rcases hrest with ⟨hnone, hm⟩ | ⟨ex, hex, hrest2⟩
    · have hne : k ≠ key := by
        intro hh
        rw [hh, hnone] at hget
        exact Option.noConfusion hget
      rw [hm, mapGet_mapSet_ne m key k _ hne]
      exact hget
    · rcases hrest2 with ⟨hph, _, hm⟩ | ⟨_, hm⟩
      · have hne : k ≠ key := by
          intro hh
          rw [hh, hex] at hget
          have : ex = src := Option.some.inj hget
          rw [this] at hph
          exact htitle hph
        rw [hm, mapGet_mapSet_ne m key k _ hne]
        exact hget
      · rw [hm]; exact hget

theorem chunkValidInfos_mem (cs : List Json)
    (infos : List (Str × Str × Option Json))
    (h : chunkValidInfos cs = Except.ok infos) :
    ∀ i ∈ infos, ∃ c ∈ cs, chunkParse c = Except.ok (some i) := by
  induction cs generalizing infos with
  | nil =>
      simp only [chunkValidInfos] at h
      rw [← Except.ok.inj h]
      intro i hi
      exact absurd hi (by simp)
  | cons c cs ih =>
      rcases hp : chunkParse c with e | oi
      · simp only [chunkValidInfos, hp] at h
        exact Except.noConfusion h
      · rcases oi with _ | i0
        · simp only [chunkValidInfos, hp] at h
          intro i hi
          obtain ⟨c', hc', hpc'⟩ := ih infos h i hi
          exact ⟨c', by simp [hc'], hpc'⟩
        · simp only [chunkValidInfos, hp] at h
          rcases hrest : chunkValidInfos cs with e | rest
          · rw [hrest] at h
            exact Except.noConfusion h
          · rw [hrest] at h
            rw [← Except.ok.inj h]
            intro i hi
            rcases List.mem_cons.1 hi with hi0 | hi1
            · exact ⟨c, by simp, by rw [hi0]; exact hp⟩
            · obtain ⟨c', hc', hpc'⟩ := ih rest hrest i hi1
              exact ⟨c', by simp [hc'], hpc'⟩

theorem chunksGo_spec (cs : List Json) :
    ∀ (m : List (Str × Source)) (im : List (Nat × Str)) (idx : Nat)
      (m2 : List (Str × Source)) (im2 : List (Nat × Str)),
      chunksGo m im idx cs = Except.ok (m2, im2) →
      ∃ infos, chunkValidInfos cs = Except.ok infos ∧
        m2.map Prod.fst = dedupFrom (m.map Prod.fst) (infos.map (fun i => i.1)) ∧
        (∀ p ∈ m2, p ∈ m ∨ ∃ i ∈ infos, p.1 = i.1 ∧ p.2.uri = i.2.1) := by
  induction cs with
  | nil =>
      intro m im idx m2 im2 h
      simp only [chunksGo] at h
      have h1 := Except.ok.inj h
      have hm : m2 = m := (congrArg Prod.fst h1).symm
      exact ⟨[], rfl, by rw [hm]; rfl, fun p hp => Or.inl (hm ▸ hp)⟩
  | cons c cs ih =>
      intro m im idx m2 im2 h
      simp only [chunksGo] at h
      rcases hstep : chunkStep m im idx c with e | pr
      · simp only [hstep] at h
        exact Except.noConfusion h
      · obtain ⟨m', im'⟩ := pr
        simp only [hstep] at h
        obtain ⟨infos, hinfos, hkeys, hprov⟩ := ih m' im' (idx + 1) m2 im2 h
        rcases chunkStep_inv m im idx c m' im' hstep with
          ⟨hp, hm, _⟩ | ⟨key, s, title, hp, _, hrest⟩
        · refine ⟨infos, ?_, ?_, ?_⟩
          · simp only [chunkValidInfos, hp]
            exact hinfos
          · rw [hkeys, hm]
          · intro p hp2
            rcases hprov p hp2 with h1 | h1
            · exact Or.inl (hm ▸ h1)
            · exact Or.inr h1
        · have hvalid : chunkValidInfos (c :: cs) = Except.ok ((key, s, title) :: infos) := by
            simp only [chunkValidInfos, hp, hinfos]
          refine ⟨(key, s, title) :: infos, hvalid, ?_, ?_⟩
          · rcases hrest with ⟨hnone, hm⟩ | ⟨ex, hex, hrest2⟩
            · have hmem : key ∉ m.map Prod.fst :=
                (mapGet_eq_none_iff m key).1 hnone
              rw [hkeys, hm, mapSet_fst_of_get_none m key _ hnone]
              simp only [List.map_cons]
              rw [dedupFrom_cons, if_neg hmem]
            · have hmem : key ∈ m.map Prod.fst :=
                List.mem_map.2 ⟨(key, ex), mapGet_mem m key ex hex, rfl⟩
              have hfst : m'.map Prod.fst = m.map Prod.fst := by
                rcases hrest2 with ⟨_, _, hm⟩ | ⟨_, hm⟩
                · rw [hm]; exact mapSet_fst_of_get_some m key _ ex hex
                · rw [hm]
              rw [hkeys, hfst]
              simp only [List.map_cons]
              rw [dedupFrom_cons, if_pos hmem]
          · intro p hp2
            rcases hprov p hp2 with h1 | h1
            · rcases hrest with ⟨_, hm⟩ | ⟨ex, hex, hrest2⟩
              · rw [hm] at h1
                rcases mem_mapSet m key _ p h1 with h2 | h2
                · exact Or.inl h2
                · exact Or.inr ⟨(key, s, title), by simp, by rw [h2], by rw [h2]⟩
              · rcases hrest2 with ⟨_, _, hm⟩ | ⟨_, hm⟩
                · rw [hm] at h1
                  rcases mem_mapSet m key _ p h1 with h2 | h2
                  · exact Or.inl h2
                  · exact Or.inr ⟨(key, s, title), by simp, by rw [h2], by rw [h2]⟩
                · exact Or.inl (hm ▸ h1)
            · obtain ⟨i, hi, hpi⟩ := h1
              exact Or.inr ⟨i, by simp [hi], hpi⟩

/-- Claim C6: for every chunk list, the first chunk seen for a normalized
URI creates a Source titled with the chunk's web title when that title is
present and truthy (non-empty), else the placeholder "Unknown Source"
(this is `title || "Unknown Source"`, expressed by `jsOr`); a later chunk
with the same key changes the stored entry only when the stored title is
exactly the placeholder and the new chunk supplies a truthy title; and
once a non-placeholder title is stored, no later chunk for the same URI
changes the entry (persistence over the rest of the fold). -/
theorem claim6_title_upgrade_policy :
    (∀ (m : List (Str × Source)) (im : List (Nat × Str)) (idx : Nat)
        (c : Json) (key s : Str) (title : Option Json),
        chunkParse c = Except.ok (some (key, s, title)) →
        mapGet m key = none →
        chunkStep m im idx c =
          Except.ok (mapSet m key ⟨jsOr title (Json.str placeholderTitle), s, 0⟩,
            mapSet im idx key)) ∧
    (∀ (m : List (Str × Source)) (im : List (Nat × Str)) (idx : Nat)
        (c : Json) (key s : Str) (title : Option Json) (ex : Source),
        chunkParse c = Except.ok (some (key, s, title)) →
        mapGet m key = some ex →
        chunkStep m im idx c =
          Except.ok
            ((if ex.title = Json.str placeholderTitle ∧ truthyO title = true
              then mapSet m key ⟨jsOr title (Json.str placeholderTitle), s, 0⟩
              else m), mapSet im idx key)) ∧
    (∀ (cs : List Json) (m : List (Str × Source)) (im : List (Nat × Str))
        (idx : Nat) (k : Str) (src : Source) (m2 : List (Str × Source))
        (im2 : List (Nat × Str)),
        mapGet m k = some src →
        src.title ≠ Json.str placeholderTitle →
        chunksGo m im idx cs = Except.ok (m2, im2) →
        mapGet m2 k = some src) := by
  refine ⟨?_, ?_, ?_⟩
  · intro m im idx c key s title hp hg
    simp only [chunkStep, hp, hg]
  · intro m im idx c key s title ex hp hg
    by_cases hc : ex.title = Json.str placeholderTitle ∧ truthyO title = true
    · simp only [chunkStep, hp, hg, if_pos hc]
    · simp only [chunkStep, hp, hg, if_neg hc]
  · intro cs
    induction cs with
    | nil =>
        intro m im idx k src m2 im2 hget ht h
        simp only [chunksGo] at h
        have h1 : m = m2 := congrArg Prod.fst (Except.ok.inj h)
        rw [← h1]
        exact hget
    | cons c cs ih =>
        intro m im idx k src m2 im2 hget ht h
        simp only [chunksGo] at h
        rcases hstep : chunkStep m im idx c with e | pr
        · simp only [hstep] at h
          exact Except.noConfusion h
        · obtain ⟨m', im'⟩ := pr
          simp only [hstep] at h
          exact ih m' im' (idx + 1) k src m2 im2
            (chunkStep_preserves m im idx c m' im' k src hstep hget ht) ht h

/-- Claim C6 witness: a map holding a placeholder-titled Source for the
key "http://a" processed against a chunk carrying the same key and the
truthy title "New": the upgrade fires (the stored title was exactly the
placeholder and the new title is truthy). -/
theorem claim6_witness :
    chunkStep [(toChars "http://a",
        (⟨Json.str placeholderTitle, toChars "http://a/", 0⟩ : Source))] [] 3
      (Json.obj [(webKey, Json.obj [(uriKey, Json.str (toChars "http://a")),
        (titleKey, Json.str (toChars "New"))])]) =
    Except.ok
      ((if (⟨Json.str placeholderTitle, toChars "http://a/", 0⟩ : Source).title =
            Json.str placeholderTitle ∧
          truthyO (some (Json.str (toChars "New"))) = true
        then mapSet [(toChars "http://a",
            (⟨Json.str placeholderTitle, toChars "http://a/", 0⟩ : Source))]
          (toChars "http://a")
          ⟨jsOr (some (Json.str (toChars "New"))) (Json.str placeholderTitle),
            toChars "http://a", 0⟩
        else [(toChars "http://a",
          (⟨Json.str placeholderTitle, toChars "http://a/", 0⟩ : Source))]),
        mapSet [] 3 (toChars "http://a")) :=
  claim6_title_upgrade_policy.2.1
    [(toChars "http://a", ⟨Json.str placeholderTitle, toChars "http://a/", 0⟩)] [] 3
    (Json.obj [(webKey, Json.obj [(uriKey, Json.str (toChars "http://a")),
      (titleKey, Json.str (toChars "New"))])])
    (toChars "http://a") (toChars "http://a") (some (Json.str (toChars "New")))
    ⟨Json.str placeholderTitle, toChars "http://a/", 0⟩ (by rfl) (by rfl)

/-- Claim C7: on every successful run of the citation extractor, the
output source entries carry pairwise distinct normalized URIs; their keys
are the first-occurrence dedup of the accepted chunks' normalized URIs in
input order; and every output Source traces back to an accepted chunk
carrying a truthy (non-empty) string uri — so a chunk lacking one never
produces a Source. -/
theorem claim7_source_dedup_order :
    ∀ (chunks : List Json) (m : List (Str × Source)) (im : List (Nat × Str)),
      processChunks chunks = Except.ok (m, im) →
      ∃ infos, chunkValidInfos chunks = Except.ok infos ∧
        m.map Prod.fst = dedupFrom [] (infos.map (fun i => i.1)) ∧
        (m.map (fun p => normalizeUri p.2.uri)).Nodup ∧
        (∀ p ∈ m, ∃ i ∈ infos, ∃ c ∈ chunks,
            chunkParse c = Except.ok (some i) ∧ p.2.uri = i.2.1 ∧ i.2.1 ≠ [] ∧
            p.1 = normalizeUri p.2.uri) := by
  intro chunks m im h
  obtain ⟨infos, hinfos, hkeys, hprov⟩ := chunksGo_spec chunks [] [] 0 m im h
  have hprov' : ∀ p ∈ m, ∃ i ∈ infos, p.1 = i.1 ∧ p.2.uri = i.2.1 := by
    intro p hp
    rcases hprov p hp with h1 | h1
    · exact absurd h1 (by simp)
    · exact h1
  have hnorm : ∀ p ∈ m, normalizeUri p.2.uri = p.1 := by
    intro p hp
    obtain ⟨i, hi, hp1, hp2⟩ := hprov' p hp
    obtain ⟨c, hc, hpc⟩ := chunkValidInfos_mem chunks infos hinfos i hi
    have hinv := chunkParse_some_inv c i.1 i.2.1 i.2.2 hpc
    rw [hp1, hp2]
    exact hinv.1.symm
  have hmapeq : m.map (fun p => normalizeUri p.2.uri) = m.map Prod.fst :=
    List.map_congr_left hnorm
  refine ⟨infos, hinfos, hkeys, ?_, ?_⟩
  · rw [hmapeq, hkeys]
    exact dedupFrom_nodup _ _ (by simp)
  · intro p hp
    obtain ⟨i, hi, hp1, hp2⟩ := hprov' p hp
    obtain ⟨c, hc, hpc⟩ := chunkValidInfos_mem chunks infos hinfos i hi
    have hinv := chunkParse_some_inv c i.1 i.2.1 i.2.2 hpc
    refine ⟨i, hi, c, hc, hpc, hp2, hinv.2, ?_⟩
    rw [hp1, hp2]
    exact hinv.1

/-- Claim C7 witness: three chunks — a bare uri "http://a/", a chunk with
no web field, and a titled duplicate "http://a" — produce a single Source
under the shared normalized key, in first-occurrence position. -/
theorem claim7_witness :
    ∃ infos, chunkValidInfos
        [Json.obj [(webKey, Json.obj [(uriKey, Json.str (toChars "http://a/"))])],
         Json.obj [],
         Json.obj [(webKey, Json.obj [(uriKey, Json.str (toChars "http://a")),
           (titleKey, Json.str (toChars "T"))])]] = Except.ok infos ∧
      ([(toChars "http://a",
          (⟨Json.str (toChars "T"), toChars "http://a", 0⟩ : Source))].map
            Prod.fst) = dedupFrom [] (infos.map (fun i => i.1)) ∧
      ([(toChars "http://a",
          (⟨Json.str (toChars "T"), toChars "http://a", 0⟩ : Source))].map
            (fun p => normalizeUri p.2.uri)).Nodup ∧
      (∀ p ∈ [(toChars "http://a",
          (⟨Json.str (toChars "T"), toChars "http://a", 0⟩ : Source))],
          ∃ i ∈ infos,
            ∃ c ∈ [Json.obj [(webKey, Json.obj [(uriKey, Json.str (toChars "http://a/"))])],
                   Json.obj [],
                   Json.obj [(webKey, Json.obj [(uriKey, Json.str (toChars "http://a")),
                     (titleKey, Json.str (toChars "T"))])]],
              chunkParse c = Except.ok (some i) ∧ p.2.uri = i.2.1 ∧ i.2.1 ≠ [] ∧
              p.1 = normalizeUri p.2.uri) :=
  claim7_source_dedup_order
    [Json.obj [(webKey, Json.obj [(uriKey, Json.str (toChars "http://a/"))])],
     Json.obj [],
     Json.obj [(webKey, Json.obj [(uriKey, Json.str (toChars "http://a")),
       (titleKey, Json.str (toChars "T"))])]]
    [(toChars "http://a", ⟨Json.str (toChars "T"), toChars "http://a", 0⟩)]
    [(0, toChars "http://a"), (2, toChars "http://a")] (by rfl)

/-- Claim C9 (amended): when a later chunk upgrades the title of an
existing placeholder-titled Source, the entry's position in the output
list is preserved (the key list is unchanged), but the stored Source is
rebuilt from the UPGRADING chunk: both its title and its uri come from
that chunk — the uri field does NOT keep the value established by the
first-seen chunk (it is replaced by the upgrading chunk's raw uri, which
normalizes to the same key). -/
theorem claim9_upgrade_replaces_entry :
    ∀ (m : List (Str × Source)) (im : List (Nat × Str)) (idx : Nat)
      (c : Json) (key s : Str) (title : Option Json) (ex : Source),
      chunkParse c = Except.ok (some (key, s, title)) →
      mapGet m key = some ex →
      ex.title = Json.str placeholderTitle →
      truthyO title = true →
      chunkStep m im idx c =
        Except.ok (mapSet m key ⟨jsOr title (Json.str placeholderTitle), s, 0⟩,
          mapSet im idx key) ∧
      (mapSet m key ⟨jsOr title (Json.str placeholderTitle), s, 0⟩).map Prod.fst =
        m.map Prod.fst ∧
      mapGet (mapSet m key ⟨jsOr title (Json.str placeholderTitle), s, 0⟩) key =
        some ⟨jsOr title (Json.str placeholderTitle), s, 0⟩ := by
  intro m im idx c key s title ex hp hg hph htr
  refine ⟨?_, ?_, ?_⟩
  · simp only [chunkStep, hp, hg, if_pos (And.intro hph htr)]
  · exact mapSet_fst_of_get_some m key _ ex hg
  · exact mapGet_mapSet_self m key _

/-- Claim C9, counterexample to the claim as stated: the first chunk
establishes uri "http://e.com/" (placeholder title); the second chunk
(same normalized key) upgrades the title to "T" — and the stored Source's
uri is now "http://e.com", the upgrading chunk's uri, which differs from
the first-seen "http://e.com/".  So an upgrade changes more than the
title field. -/
theorem claim9_counterexample :
    processChunks
        [Json.obj [(webKey, Json.obj [(uriKey, Json.str (toChars "http://e.com/"))])],
         Json.obj [(webKey, Json.obj [(uriKey, Json.str (toChars "http://e.com")),
           (titleKey, Json.str (toChars "T"))])]] =
      Except.ok
        ([(toChars "http://e.com",
            ⟨Json.str (toChars "T"), toChars "http://e.com", 0⟩)],
         [(0, toChars "http://e.com"), (1, toChars "http://e.com")]) ∧
    toChars "http://e.com" ≠ toChars "http://e.com/" := ⟨rfl, by decide⟩

/-- Claim C9 witness: a concrete upgrade step — placeholder entry for key
"http://b", upgrading chunk with uri "http://b" and title "T2". -/
theorem claim9_witness :
    chunkStep [(toChars "http://b",
        (⟨Json.str placeholderTitle, toChars "http://b/", 0⟩ : Source))] [] 1
      (Json.obj [(webKey, Json.obj [(uriKey, Json.str (toChars "http://b")),
        (titleKey, Json.str (toChars "T2"))])]) =
      Except.ok (mapSet [(toChars "http://b",
          (⟨Json.str placeholderTitle, toChars "http://b/", 0⟩ : Source))]
          (toChars "http://b")
          ⟨jsOr (some (Json.str (toChars "T2"))) (Json.str placeholderTitle),
            toChars "http://b", 0⟩,
        mapSet [] 1 (toChars "http://b")) ∧
    (mapSet [(toChars "http://b",
        (⟨Json.str placeholderTitle, toChars "http://b/", 0⟩ : Source))]
        (toChars "http://b")
        ⟨jsOr (some (Json.str (toChars "T2"))) (Json.str placeholderTitle),
          toChars "http://b", 0⟩).map Prod.fst =
      [(toChars "http://b",
        (⟨Json.str placeholderTitle, toChars "http://b/", 0⟩ : Source))].map Prod.fst ∧
    mapGet (mapSet [(toChars "http://b",
        (⟨Json.str placeholderTitle, toChars "http://b/", 0⟩ : Source))]
        (toChars "http://b")
        ⟨jsOr (some (Json.str (toChars "T2"))) (Json.str placeholderTitle),
          toChars "http://b", 0⟩) (toChars "http://b") =
      some ⟨jsOr (some (Json.str (toChars "T2"))) (Json.str placeholderTitle),
        toChars "http://b", 0⟩ :=
  claim9_upgrade_replaces_entry
    [(toChars "http://b", ⟨Json.str placeholderTitle, toChars "http://b/", 0⟩)] [] 1
    (Json.obj [(webKey, Json.obj [(uriKey, Json.str (toChars "http://b")),
      (titleKey, Json.str (toChars "T2"))])])
    (toChars "http://b") (toChars "http://b") (some (Json.str (toChars "T2")))
    ⟨Json.str placeholderTitle, toChars "http://b/", 0⟩
    (by rfl) (by rfl) (by rfl) (by rfl)

/-- Claim C3: when parsing the narrowed payload candidate fails, the
pipeline returns the partial result (empty graph, already-extracted
sources, queries, summary, supports) when at least one Source was
extracted, and signals the explicit parse error when zero Sources were
extracted. -/
theorem claim3_parse_failure_partial_or_fatal :
    ∀ (text : Str) (chunks supports : List Json) (queries : List Str)
      (m m2 : List (Str × Source)) (im : List (Nat × Str)) (cs2 : List Json),
      processChunks chunks = Except.ok (m, im) →
      processSupports supports im m = Except.ok (m2, cs2) →
      parseJson (narrowBraces (isolate text).1) = none →
      processGeminiOutput text chunks supports queries =
        (if 0 < (m2.map Prod.snd).length
         then Except.ok ⟨⟨[], []⟩, m2.map Prod.snd, queries, (isolate text).2, cs2⟩
         else Except.error JsError.parseError) := by
  intro text chunks supports queries m m2 im cs2 h1 h2 h3
  simp only [processGeminiOutput, h1, h2, h3]

/-- Claim C3 witness: unparseable text with one extracted Source yields
the partial result; the hypotheses are discharged on concrete inputs. -/
theorem claim3_witness :
    processGeminiOutput (toChars "no payload here")
        [Json.obj [(webKey, Json.obj [(uriKey, Json.str (toChars "http://a")),
          (titleKey, Json.str (toChars "A"))])]] [] [toChars "q"] =
      (if 0 < (([(toChars "http://a",
            (⟨Json.str (toChars "A"), toChars "http://a", 0⟩ : Source))]).map
              Prod.snd).length
       then Except.ok ⟨⟨[], []⟩,
          ([(toChars "http://a",
            (⟨Json.str (toChars "A"), toChars "http://a", 0⟩ : Source))]).map
              Prod.snd,
          [toChars "q"], (isolate (toChars "no payload here")).2, []⟩
       else Except.error JsError.parseError) :=
  claim3_parse_failure_partial_or_fatal (toChars "no payload here")
    [Json.obj [(webKey, Json.obj [(uriKey, Json.str (toChars "http://a")),
      (titleKey, Json.str (toChars "A"))])]] [] [toChars "q"]
    [(toChars "http://a", ⟨Json.str (toChars "A"), toChars "http://a", 0⟩)]
    [(toChars "http://a", ⟨Json.str (toChars "A"), toChars "http://a", 0⟩)]
    [(0, toChars "http://a")] []
    (by rfl) (by rfl) (by rfl)

/-- Claim C5: when the payload parses but the parsed value is falsy or
lacks an array `nodes` or `edges` field, the pipeline never signals an
error, regardless of how many Sources were extracted: it returns an empty
graph with the extracted sources, summary, queries, and supports. -/
theorem claim5_invalid_shape_never_fatal :
    ∀ (text : Str) (chunks supports : List Json) (queries : List Str)
      (m m2 : List (Str × Source)) (im : List (Nat × Str)) (cs2 : List Json)
      (gd : Json),
      processChunks chunks = Except.ok (m, im) →
      processSupports supports im m = Except.ok (m2, cs2) →
      parseJson (narrowBraces (isolate text).1) = some gd →
      shapeFields gd = none →
      processGeminiOutput text chunks supports queries =
        Except.ok ⟨⟨[], []⟩, m2.map Prod.snd, queries, (isolate text).2, cs2⟩ := by
  intro text chunks supports queries m m2 im cs2 gd h1 h2 h3 h4
  simp only [processGeminiOutput, h1, h2, h3, h4]

/-- Claim C5 witness: a parsed object with no `nodes`/`edges` arrays and
ZERO extracted sources still yields a successful empty-graph result (no
error), exhibiting the asymmetry with the parse-failure case. -/
theorem claim5_witness :
    processGeminiOutput (toChars "\x7b\"foo\":1\x7d") [] [] [] =
      Except.ok ⟨⟨[], []⟩, ([] : List (Str × Source)).map Prod.snd, [],
        (isolate (toChars "\x7b\"foo\":1\x7d")).2, []⟩ :=
  claim5_invalid_shape_never_fatal (toChars "\x7b\"foo\":1\x7d") [] [] [] [] [] [] []
    (Json.obj [(toChars "foo", Json.num 1)])
    (by rfl) (by rfl) (by rfl) (by rfl)

theorem edgePass_ok_eq (ids : List (Option Json)) (es out : List Json)
    (h : edgePass ids es = Except.ok out) :
    out = (es.filter (keptEdge ids)).map rewriteEdge ∧
    ∀ e ∈ es, e ≠ Json.null := by
  induction es generalizing out with
  | nil =>
      simp only [edgePass] at h
      rw [← Except.ok.inj h]
      exact ⟨rfl, by simp⟩
  | cons e es ih =>
      by_cases hnull : e = Json.null
      · simp only [edgePass, if_pos hnull] at h
        exact Except.noConfusion h
      · simp only [edgePass, if_neg hnull] at h
        rcases hrec : edgePass ids es with err | rest
        · simp only [hrec] at h
          exact Except.noConfusion h
        · simp only [hrec] at h
          obtain ⟨hout', hnn⟩ := ih rest hrec
          by_cases hk : keptEdge ids e = true
          · simp only [if_pos hk] at h
            refine ⟨?_, ?_⟩
            · rw [← Except.ok.inj h, hout']
              simp [List.filter_cons, hk]
            · intro e' he'
              rcases List.mem_cons.1 he' with h1 | h1
              · rw [h1]; exact hnull
              · exact hnn e' h1
          · have hk' : keptEdge ids e = false := by
              rcases Bool.eq_false_or_eq_true (keptEdge ids e) with h1 | h1
              · exact absurd h1 hk
              · exact h1
            simp only [if_neg hk] at h
            refine ⟨?_, ?_⟩
            · rw [← Except.ok.inj h, hout']
              simp [List.filter_cons, hk']
            · intro e' he'
              rcases List.mem_cons.1 he' with h1 | h1
              · rw [h1]; exact hnull
              · exact hnn e' h1

theorem sanitizeGraph_inv (ns es cn ce : List Json)
    (h : sanitizeGraph ns es = Except.ok (cn, ce)) :
    cn = dedupNodesList ns ∧ edgePass (nodeIdsOf cn) es = Except.ok ce := by
  simp only [sanitizeGraph] at h
  rcases hep : edgePass (nodeIdsOf (dedupNodesList ns)) es with err | ce'
  · simp only [hep] at h
    exact Except.noConfusion h
  · simp only [hep] at h
    have h1 := Except.ok.inj h
    have hcn : cn = dedupNodesList ns := (congrArg Prod.fst h1).symm
    have hce : ce = ce' := (congrArg Prod.snd h1).symm
    exact ⟨hcn, by rw [hcn, hce]; exact hep⟩

theorem rewriteEdge_srcField (e : Json) :
    jsField (rewriteEdge e) srcKey = some (Json.str (edgeSrcStr e)) := by
  have hne : srcKey ≠ tgtKey := by decide
  simp only [rewriteEdge, jsField]
  rw [mapGet_mapSet_ne _ tgtKey srcKey _ hne, mapGet_mapSet_self]

theorem rewriteEdge_tgtField (e : Json) :
    jsField (rewriteEdge e) tgtKey = some (Json.str (edgeTgtStr e)) := by
  simp only [rewriteEdge, jsField]
  rw [mapGet_mapSet_self]

theorem foldl_nodeStep_mem (ns : List Json) :
    ∀ (m : List (Str × Json)) (p : Str × Json),
      p ∈ ns.foldl nodeStep m → p ∈ m ∨ p.2 ∈ ns := by
  induction ns with
  | nil => intro m p hp; exact Or.inl (by simpa using hp)
  | cons n ns ih =>
      intro m p hp
      rcases ih (nodeStep m n) p (by simpa using hp) with h1 | h1
      · by_cases hkeep : nodeKeep n = true
        · simp only [nodeStep, if_pos hkeep] at h1
          rcases mem_mapSet m (nodeKey n) n p h1 with h2 | h2
          · exact Or.inl h2
          · exact Or.inr (by rw [h2]; simp)
        · simp only [nodeStep, if_neg hkeep] at h1
          exact Or.inl h1
      · exact Or.inr (by simp [h1])

theorem dedupNodesList_subset (ns : List Json) (v : Json)
    (h : v ∈ dedupNodesList ns) : v ∈ ns := by
  simp only [dedupNodesList, dedupNodes] at h
  obtain ⟨p, hp, hpv⟩ := List.mem_map.1 h
  rcases foldl_nodeStep_mem ns [] p hp with h1 | h1
  · exact absurd h1 (by simp)
  · rw [← hpv]; exact h1

theorem processGeminiOutput_graph_inv (text : Str) (chunks supports : List Json)
    (queries : List Str) (r : GeminiResponse)
    (h : processGeminiOutput text chunks supports queries = Except.ok r) :
    r.graphData = ⟨[], []⟩ ∨
    ∃ ns es, sanitizeGraph ns es =
        Except.ok (r.graphData.nodes, r.graphData.edges) := by
  rcases hc : processChunks chunks with e | pr
  · simp only [processGeminiOutput, hc] at h
    exact Except.noConfusion h
  · obtain ⟨m, im⟩ := pr
    simp only [processGeminiOutput, hc] at h
    rcases hs : processSupports supports im m with e | pr2
    · simp only [hs] at h
      exact Except.noConfusion h
    · obtain ⟨m2, cs2⟩ := pr2
      simp only [hs] at h
      rcases hp : parseJson (narrowBraces (isolate text).1) with _ | gd
      · simp only [hp] at h
        by_cases hlen : 0 < (m2.map Prod.snd).length
        · simp only [if_pos hlen] at h
          rw [← Except.ok.inj h]
          exact Or.inl rfl
        · simp only [if_neg hlen] at h
          exact Except.noConfusion h
      · simp only [hp] at h
        rcases hsf : shapeFields gd with _ | pr3
        · simp only [hsf] at h
          rw [← Except.ok.inj h]
          exact Or.inl rfl
        · obtain ⟨ns, es⟩ := pr3
          simp only [hsf] at h
          rcases hsg : sanitizeGraph ns es with e | pr4
          · simp only [hsg] at h
            exact Except.noConfusion h
          · obtain ⟨cn, ce⟩ := pr4
            simp only [hsg] at h
            rw [← Except.ok.inj h]
            exact Or.inr ⟨ns, es, hsg⟩

/-- Claim C1: on every successful pipeline run, each output edge's
`source` and `target` fields equal the `id` of some node in the output
node set; the edge loop keeps exactly the edges whose coerced endpoints
pass the surviving-id-set test and drops the rest unrepaired; a valid
edge is always kept; and the surviving node set does not depend on the
edge list at all (dropping an edge removes no node). -/
theorem claim1_edge_referential_integrity :
    (∀ (text : Str) (chunks supports : List Json) (queries : List Str)
        (r : GeminiResponse),
        processGeminiOutput text chunks supports queries = Except.ok r →
        ∀ e ∈ r.graphData.edges,
          (∃ n ∈ r.graphData.nodes, jsField n idKey = jsField e srcKey) ∧
          (∃ n ∈ r.graphData.nodes, jsField n idKey = jsField e tgtKey)) ∧
    (∀ (ids : List (Option Json)) (es out : List Json),
        edgePass ids es = Except.ok out →
        out = (es.filter (keptEdge ids)).map rewriteEdge ∧
        (∀ e ∈ es, keptEdge ids e = true → rewriteEdge e ∈ out)) ∧
    (∀ (ns es es' cn ce cn' ce' : List Json),
        sanitizeGraph ns es = Except.ok (cn, ce) →
        sanitizeGraph ns es' = Except.ok (cn', ce') →
        cn = cn') := by
  refine ⟨?_, ?_, ?_⟩
  · intro text chunks supports queries r h e he
    rcases processGeminiOutput_graph_inv text chunks supports queries r h with
      hempty | ⟨ns, es, hsg⟩
    · rw [hempty] at he
      exact absurd he (by simp)
    · obtain ⟨hcn, hep⟩ := sanitizeGraph_inv ns es _ _ hsg
      obtain ⟨hout, _⟩ := edgePass_ok_eq _ es _ hep
      rw [hout] at he
      obtain ⟨e0, he0, hre⟩ := List.mem_map.1 he
      have he0f := List.mem_filter.1 he0
      have hk := he0f.2
      simp only [keptEdge, Bool.and_eq_true, decide_eq_true_eq] at hk
      obtain ⟨hksrc, hktgt⟩ := hk
      constructor
      · obtain ⟨n, hn, hfn⟩ := List.mem_map.1 hksrc
        refine ⟨n, hn, ?_⟩
        rw [← hre, rewriteEdge_srcField e0, hfn]
      · obtain ⟨n, hn, hfn⟩ := List.mem_map.1 hktgt
        refine ⟨n, hn, ?_⟩
        rw [← hre, rewriteEdge_tgtField e0, hfn]
  · intro ids es out h
    obtain ⟨hout, _⟩ := edgePass_ok_eq ids es out h
    refine ⟨hout, ?_⟩
    intro e he hk
    rw [hout]
    exact List.mem_map.2 ⟨e, List.mem_filter.2 ⟨he, hk⟩, rfl⟩
  · intro ns es es' cn ce cn' ce' h1 h2
    obtain ⟨hcn, _⟩ := sanitizeGraph_inv ns es cn ce h1
    obtain ⟨hcn', _⟩ := sanitizeGraph_inv ns es' cn' ce' h2
    rw [hcn, hcn']

/-- Claim C1 witness: a concrete run with one node (id "1") and a
self-loop edge; the output edge's endpoints both resolve to the output
node's id. -/
theorem claim1_witness :
    (∃ n ∈ [Json.obj [(idKey, Json.str (toChars "1"))]],
        jsField n idKey =
          jsField (Json.obj [(srcKey, Json.str (toChars "1")),
            (tgtKey, Json.str (toChars "1"))]) srcKey) ∧
    (∃ n ∈ [Json.obj [(idKey, Json.str (toChars "1"))]],
        jsField n idKey =
          jsField (Json.obj [(srcKey, Json.str (toChars "1")),
            (tgtKey, Json.str (toChars "1"))]) tgtKey) :=
  claim1_edge_referential_integrity.1
    (toChars "\x7b\"nodes\":[\x7b\"id\":\"1\"\x7d],\"edges\":[\x7b\"source\":\"1\",\"target\":\"1\"\x7d]\x7d")
    [] [] []
    ⟨⟨[Json.obj [(idKey, Json.str (toChars "1"))]],
      [Json.obj [(srcKey, Json.str (toChars "1")),
        (tgtKey, Json.str (toChars "1"))]]⟩, [], [], [], []⟩
    (by rfl)
    (Json.obj [(srcKey, Json.str (toChars "1")), (tgtKey, Json.str (toChars "1"))])
    (by simp)

/-- Claim C10: an edge is kept exactly when `String(edge.source)` and
`String(edge.target)` are each strictly equal — as values of the same
type — to the raw, uncoerced id of some surviving node (a set of ids
holding no string values keeps no edge, so a node with a numeric id
never matches); kept edges get their endpoints rewritten to the coerced
strings; and surviving nodes are input nodes, kept with their original
uncoerced id values. -/
theorem claim10_strict_edge_matching :
    ∀ (ns es cn ce : List Json),
      sanitizeGraph ns es = Except.ok (cn, ce) →
      (ce = (es.filter (keptEdge (nodeIdsOf cn))).map rewriteEdge) ∧
      (∀ e : Json, keptEdge (nodeIdsOf cn) e = true ↔
          ((∃ n ∈ cn, jsField n idKey = some (Json.str (edgeSrcStr e))) ∧
           (∃ n ∈ cn, jsField n idKey = some (Json.str (edgeTgtStr e))))) ∧
      (∀ (ids : List (Option Json)) (e : Json),
          (∀ j ∈ ids, ∀ s : Str, j ≠ some (Json.str s)) →
          keptEdge ids e = false) ∧
      (∀ e ∈ es, keptEdge (nodeIdsOf cn) e = true →
          jsField (rewriteEdge e) srcKey = some (Json.str (edgeSrcStr e)) ∧
          jsField (rewriteEdge e) tgtKey = some (Json.str (edgeTgtStr e))) ∧
      (∀ n ∈ cn, n ∈ ns) := by
  intro ns es cn ce h
  obtain ⟨hcn, hep⟩ := sanitizeGraph_inv ns es cn ce h
  obtain ⟨hout, _⟩ := edgePass_ok_eq _ es ce hep
  refine ⟨hout, ?_, ?_, ?_, ?_⟩
  · intro e
    simp [keptEdge, Bool.and_eq_true, decide_eq_true_eq, nodeIdsOf,
      List.mem_map]
  · intro ids e hno
    have h1 : some (Json.str (edgeSrcStr e)) ∉ ids :=
      fun hmem => hno _ hmem _ rfl
    simp [keptEdge, h1]
  · intro e _ _
    exact ⟨rewriteEdge_srcField e, rewriteEdge_tgtField e⟩
  · intro n hn
    rw [hcn] at hn
    exact dedupNodesList_subset ns n hn

/-- Claim C10 witness: the node `{"id": 1}` (numeric id) survives
deduplication, yet the edge `{"source":"1","target":"1"}` — whose coerced
endpoints are the STRING "1" — is dropped, because strict equality never
identifies the string "1" with the number 1. -/
theorem claim10_witness :
    ([] : List Json) =
      ([Json.obj [(srcKey, Json.str (toChars "1")),
          (tgtKey, Json.str (toChars "1"))]].filter
        (keptEdge (nodeIdsOf [Json.obj [(idKey, Json.num 1)]]))).map rewriteEdge :=
  (claim10_strict_edge_matching [Json.obj [(idKey, Json.num 1)]]
    [Json.obj [(srcKey, Json.str (toChars "1")), (tgtKey, Json.str (toChars "1"))]]
    [Json.obj [(idKey, Json.num 1)]] [] (by rfl)).1

theorem hasPfx_self_append (p t : Str) : hasPfx p (p ++ t) = true := by
  induction p with
  | nil => rfl
  | cons c p ih => simp [hasPfx, ih]

theorem hasPfx_trans (p q s : Str) (h1 : hasPfx p q = true)
    (h2 : hasPfx q s = true) : hasPfx p s = true := by
  induction p generalizing q s with
  | nil => rfl
  | cons c p ih =>
      rcases q with _ | ⟨d, q⟩
      · simp [hasPfx] at h1
      · rcases s with _ | ⟨e, s⟩
        · simp [hasPfx] at h2
        · simp only [hasPfx, Bool.and_eq_true, decide_eq_true_eq] at h1 h2 ⊢
          exact ⟨h1.1.trans h2.1, ih q s h1.2 h2.2⟩

theorem hasPfx_long (p : Str) : ∀ (u v : Str), hasPfx p (u ++ v) = true →
    p.length ≤ u.length → hasPfx p u = true := by
  induction p with
  | nil => intro u v _ _; rfl
  | cons c p ih =>
      intro u v h hlen
      rcases u with _ | ⟨d, u⟩
      · simp at hlen
      · simp only [List.cons_append, hasPfx, Bool.and_eq_true] at h ⊢
        exact ⟨h.1, ih u v h.2 (by simpa using hlen)⟩

theorem hasPfx_boundary (p : Str) : ∀ (u : Str) (c : Char) (w : Str),
    hasPfx p (u ++ c :: w) = true → u.length < p.length → c ∈ p := by
  induction p with
  | nil => intro u c w _ hlen; exact absurd hlen (by simp)
  | cons e p ih =>
      intro u c w h hlen
      rcases u with _ | ⟨d, u⟩
      · simp only [List.nil_append, hasPfx, Bool.and_eq_true,
          decide_eq_true_eq] at h
        rw [h.1]
        exact List.mem_cons_self _ _
      · simp only [List.cons_append, hasPfx, Bool.and_eq_true] at h
        exact List.mem_cons_of_mem _ (ih u c w h.2 (by simpa using hlen))

theorem findSub_none (pat : Str) : ∀ (s : Str), findSub pat s = none →
    ∀ j, hasPfx pat (s.drop j) = false := by
  intro s
  induction s with
  | nil =>
      intro h j
      by_cases hp : pat = []
      · simp [findSub, hp] at h
      · rcases pat with _ | ⟨c, ps⟩
        · exact absurd rfl hp
        · simp [hasPfx]
  | cons c rest ih =>
      intro h j
      by_cases hpfx : hasPfx pat (c :: rest) = true
      · simp [findSub, hpfx] at h
      · have hrec : findSub pat rest = none := by
          simp only [findSub, if_neg hpfx] at h
          rcases hr : findSub pat rest with _ | i
          · rfl
          · rw [hr] at h
            simp at h
        rcases j with _ | j
        · simpa using Bool.eq_false_iff.mpr hpfx
        · simpa using ih hrec j

theorem findSub_at_zero (pat s : Str) (h : hasPfx pat s = true)
    (hne : pat ≠ []) : findSub pat s = some 0 := by
  rcases s with _ | ⟨c, rest⟩
  · rcases pat with _ | ⟨p, ps⟩
    · exact absurd rfl hne
    · simp [hasPfx] at h
  · simp [findSub, h]

theorem findSub_append_of_no_match (pat : Str) :
    ∀ (a b : Str), (∀ j, j < a.length → hasPfx pat (a.drop j ++ b) = false) →
    findSub pat (a ++ b) = (findSub pat b).map (· + a.length) := by
  intro a
  induction a with
  | nil =>
      intro b _
      rcases hb : findSub pat b with _ | i <;> simp [hb]
  | cons c a ih =>
      intro b h
      have h0 : hasPfx pat (c :: (a ++ b)) = false := by
        have := h 0 (by simp)
        simpa using this
      show findSub pat (c :: (a ++ b)) = _
      rw [findSub, if_neg (by rw [h0]; exact Bool.false_ne_true)]
      rw [ih b (fun j hj => by simpa using h (j + 1) (by simpa using hj))]
      rw [Option.map_map]
      rcases hb : findSub pat b with _ | i
      · simp
      · simp [Function.comp, Nat.add_assoc]

theorem findSub_nl_boundary (pat a b : Str)
    (hnl : '\n' ∉ pat) (hnc : ∀ j, hasPfx pat (a.drop j) = false) :
    findSub pat ((a ++ ['\n']) ++ b) =
      (findSub pat b).map (· + (a.length + 1)) := by
  have hlen : (a ++ ['\n']).length = a.length + 1 := by simp
  rw [findSub_append_of_no_match pat (a ++ ['\n']) b ?_, hlen]
  intro j hj
  rw [hlen] at hj
  have hj' : j ≤ a.length := by omega
  rw [List.drop_append_of_le_length hj', List.append_assoc,
    List.singleton_append]
  cases hb : hasPfx pat (a.drop j ++ '\n' :: b) with
  | false => rfl
  | true =>
      exfalso
      by_cases hlong : pat.length ≤ (a.drop j).length
      · have := hasPfx_long pat (a.drop j) ('\n' :: b) hb hlong
        rw [hnc j] at this
        exact Bool.false_ne_true this
      · have := hasPfx_boundary pat (a.drop j) '\n' b hb (by omega)
        exact hnl this

theorem containsSub_false_drop (pat s : Str) (h : containsSub pat s = false) :
    ∀ j, hasPfx pat (s.drop j) = false := by
  rcases hfs : findSub pat s with _ | i
  · exact findSub_none pat s hfs
  · rw [containsSub, hfs] at h
    simp at h

theorem rtrim_append_ws (a : Str) (c : Char) (hc : wsChar c = true) :
    rtrim (a ++ [c]) = rtrim a := by
  rw [rtrim, rtrim, List.reverse_concat', List.dropWhile_cons, if_pos hc]

theorem trim_append_ws (a : Str) (c : Char) (hc : wsChar c = true) :
    trimStr (a ++ [c]) = trimStr a := by
  by_cases he : (List.dropWhile wsChar a).isEmpty = true
  · have h1 : List.dropWhile wsChar a = [] := by
      simpa [List.isEmpty_iff] using he
    rw [trimStr, trimStr, ltrim, ltrim, List.dropWhile_append, if_pos he, h1]
    rw [show List.dropWhile wsChar [c] = [] from by
      rw [List.dropWhile_cons, if_pos hc]; rfl]
  · have h1 : List.dropWhile wsChar (a ++ [c]) =
        List.dropWhile wsChar a ++ [c] := by
      rw [List.dropWhile_append, if_neg he]
    rw [trimStr, trimStr, ltrim, ltrim, h1, rtrim_append_ws _ c hc]

theorem trim_fence_body (mid : Str) :
    trimStr ('\n' :: ((lbrace :: (mid ++ [rbrace])) ++ ['\n'])) =
      lbrace :: (mid ++ [rbrace]) := by
  have h1 : '\n' :: ((lbrace :: (mid ++ [rbrace])) ++ ['\n']) =
      ('\n' :: (lbrace :: (mid ++ [rbrace]))) ++ ['\n'] := by simp
  rw [h1, trim_append_ws _ '\n' (by decide)]
  rw [trimStr, ltrim, List.dropWhile_cons, if_pos (by decide : wsChar '\n' = true)]
  rw [show List.dropWhile wsChar (lbrace :: (mid ++ [rbrace])) =
      lbrace :: (mid ++ [rbrace]) from by
    rw [List.dropWhile_cons, if_neg (by decide)]]
  rw [show lbrace :: (mid ++ [rbrace]) = (lbrace :: mid) ++ [rbrace] from by simp]
  rw [rtrim, List.reverse_concat', List.dropWhile_cons, if_neg (by decide)]
  simp

theorem narrowBraces_object (mid : Str) :
    narrowBraces (lbrace :: (mid ++ [rbrace])) = lbrace :: (mid ++ [rbrace]) := by
  have hf : findSub [lbrace] (lbrace :: (mid ++ [rbrace])) = some 0 :=
    findSub_at_zero _ _ (by simp [hasPfx]) (by simp)
  have hrev : (lbrace :: (mid ++ [rbrace])).reverse =
      rbrace :: (mid.reverse ++ [lbrace]) := by simp
  have hl : lastIdxOf rbrace (lbrace :: (mid ++ [rbrace])) =
      some (mid.length + 1) := by
    rw [lastIdxOf, hrev, findSub_at_zero [rbrace] _ (by simp [hasPfx]) (by simp)]
    simp
  rw [narrowBraces, hf, hl]
  show (if 0 < mid.length + 1 then
      List.drop 0 (List.take (mid.length + 1 + 1) (lbrace :: (mid ++ [rbrace])))
    else lbrace :: (mid ++ [rbrace])) = lbrace :: (mid ++ [rbrace])
  rw [if_pos (by omega)]
  rw [show mid.length + 1 + 1 = (lbrace :: (mid ++ [rbrace])).length from by
    simp]
  rw [List.take_length]
  rfl

theorem shapeFields_of_arrays (j : Json) (ns es : List Json)
    (hn : jsField j nodesKey = some (Json.arr ns))
    (he : jsField j edgesKey = some (Json.arr es)) :
    shapeFields j = some (ns, es) := by
  have hobj : truthyV j = true := by
    rcases j with _ | b | n | s | xs | fs
    · simp [jsField] at hn
    · simp [jsField] at hn
    · simp [jsField] at hn
    · simp [jsField] at hn
    · simp [jsField] at hn
    · rfl
  simp only [shapeFields, hobj, if_true, hn, he]

theorem matchFence_fenced (pre mid post : Str)
    (hpre : containsSub fenceTag pre = false)
    (hjs : containsSub fenceTag (lbrace :: (mid ++ [rbrace])) = false) :
    matchFence fenceJsonTag
        (pre ++ '\n' :: (fenceJsonTag ++ '\n' ::
          ((lbrace :: (mid ++ [rbrace])) ++ '\n' :: (fenceTag ++ '\n' :: post)))) =
      some (pre.length + 1, lbrace :: (mid ++ [rbrace])) := by
  have hpreJ : ∀ jj, hasPfx fenceJsonTag (pre.drop jj) = false := by
    intro jj
    cases hb : hasPfx fenceJsonTag (pre.drop jj) with
    | false => rfl
    | true =>
        exfalso
        have h2 := hasPfx_trans fenceTag fenceJsonTag (pre.drop jj) (by decide) hb
        rw [containsSub_false_drop fenceTag pre hpre jj] at h2
        exact Bool.false_ne_true h2
  have hjsx : ∀ jj,
      hasPfx fenceTag (('\n' :: (lbrace :: (mid ++ [rbrace]))).drop jj) = false := by
    intro jj
    rcases jj with _ | jj
    · simp only [List.drop_zero]
      rw [show fenceTag = '\x60' :: '\x60' :: '\x60' :: [] from by decide]
      simp only [hasPfx]
      rw [show (decide (('\x60' : Char) = '\n')) = false from by decide]
      rfl
    · simpa using containsSub_false_drop fenceTag (lbrace :: (mid ++ [rbrace])) hjs jj
  have ha : findSub fenceJsonTag
      (pre ++ '\n' :: (fenceJsonTag ++ '\n' ::
        ((lbrace :: (mid ++ [rbrace])) ++ '\n' :: (fenceTag ++ '\n' :: post)))) =
      some (pre.length + 1) := by
    rw [show pre ++ '\n' :: (fenceJsonTag ++ '\n' ::
        ((lbrace :: (mid ++ [rbrace])) ++ '\n' :: (fenceTag ++ '\n' :: post))) =
      (pre ++ ['\n']) ++ (fenceJsonTag ++ '\n' ::
        ((lbrace :: (mid ++ [rbrace])) ++ '\n' :: (fenceTag ++ '\n' :: post)))
      from by simp]
    rw [findSub_nl_boundary fenceJsonTag pre _ (by decide) hpreJ]
    rw [findSub_at_zero fenceJsonTag _ (hasPfx_self_append _ _) (by decide)]
    simp
  have hdrop : (pre ++ '\n' :: (fenceJsonTag ++ '\n' ::
        ((lbrace :: (mid ++ [rbrace])) ++ '\n' :: (fenceTag ++ '\n' :: post)))).drop
          (pre.length + 1 + fenceJsonTag.length) =
      '\n' :: ((lbrace :: (mid ++ [rbrace])) ++ '\n' :: (fenceTag ++ '\n' :: post)) := by
    rw [show pre ++ '\n' :: (fenceJsonTag ++ '\n' ::
        ((lbrace :: (mid ++ [rbrace])) ++ '\n' :: (fenceTag ++ '\n' :: post))) =
      ((pre ++ ['\n']) ++ fenceJsonTag) ++ ('\n' ::
        ((lbrace :: (mid ++ [rbrace])) ++ '\n' :: (fenceTag ++ '\n' :: post)))
      from by simp]
    exact List.drop_left' (by
      simp only [List.length_append, List.length_cons, List.length_nil])
  have hf2 : findSub fenceTag
      ('\n' :: ((lbrace :: (mid ++ [rbrace])) ++ '\n' :: (fenceTag ++ '\n' :: post))) =
      some (mid.length + 4) := by
    rw [show '\n' :: ((lbrace :: (mid ++ [rbrace])) ++ '\n' :: (fenceTag ++ '\n' :: post)) =
      (('\n' :: (lbrace :: (mid ++ [rbrace]))) ++ ['\n']) ++ (fenceTag ++ '\n' :: post)
      from by simp]
    rw [findSub_nl_boundary fenceTag ('\n' :: (lbrace :: (mid ++ [rbrace]))) _
      (by decide) hjsx]
    rw [findSub_at_zero fenceTag _ (hasPfx_self_append _ _) (by decide)]
    simp only [Option.map]
    congr 1
    simp only [List.length_cons, List.length_append, List.length_nil]
    omega
  have htake : ('\n' :: ((lbrace :: (mid ++ [rbrace])) ++ '\n' ::
        (fenceTag ++ '\n' :: post))).take (mid.length + 4) =
      ('\n' :: (lbrace :: (mid ++ [rbrace]))) ++ ['\n'] := by
    rw [show '\n' :: ((lbrace :: (mid ++ [rbrace])) ++ '\n' :: (fenceTag ++ '\n' :: post)) =
      (('\n' :: (lbrace :: (mid ++ [rbrace]))) ++ ['\n']) ++ (fenceTag ++ '\n' :: post)
      from by simp]
    exact List.take_left' (by
      simp only [List.length_append, List.length_cons, List.length_nil])
  simp only [matchFence, ha, hdrop, hf2, htake]
  rw [show ('\n' :: (lbrace :: (mid ++ [rbrace]))) ++ ['\n'] =
    '\n' :: ((lbrace :: (mid ++ [rbrace])) ++ ['\n']) from by simp]
  rw [trim_fence_body]

theorem isolate_fenced (pre mid post : Str)
    (hpre : containsSub fenceTag pre = false)
    (hjs : containsSub fenceTag (lbrace :: (mid ++ [rbrace])) = false) :
    isolate (pre ++ '\n' :: (fenceJsonTag ++ '\n' ::
        ((lbrace :: (mid ++ [rbrace])) ++ '\n' :: (fenceTag ++ '\n' :: post)))) =
      (lbrace :: (mid ++ [rbrace]), trimStr pre) := by
  have hmf := matchFence_fenced pre mid post hpre hjs
  have htk : (pre ++ '\n' :: (fenceJsonTag ++ '\n' ::
        ((lbrace :: (mid ++ [rbrace])) ++ '\n' ::
          (fenceTag ++ '\n' :: post)))).take (pre.length + 1) =
      pre ++ ['\n'] := by
    rw [show pre ++ '\n' :: (fenceJsonTag ++ '\n' ::
        ((lbrace :: (mid ++ [rbrace])) ++ '\n' :: (fenceTag ++ '\n' :: post))) =
      (pre ++ ['\n']) ++ (fenceJsonTag ++ '\n' ::
        ((lbrace :: (mid ++ [rbrace])) ++ '\n' :: (fenceTag ++ '\n' :: post)))
      from by simp]
    exact List.take_left'
      (by simp only [List.length_append, List.length_cons, List.length_nil])
  simp only [isolate, hmf, htk, trim_append_ws pre '\n' (by decide)]

/-- Claim C8 (amended): payload isolation followed by the graph parse
recovers the (sanitized) graph encoded by the JSON for every input of the
form `<preamble>\n<json fence>\n<validJSON>\n<fence>\n<postamble>`,
PROVIDED neither the preamble nor the JSON text contains the fence marker
(three consecutive backticks); the postamble remains arbitrary.  The
recovered result carries the sanitized graph, the trimmed preamble as
summary, and the pass-through queries. -/
theorem claim8_fenced_roundtrip :
    ∀ (pre mid post : Str) (queries : List Str) (j : Json) (ns es : List Json),
      containsSub fenceTag pre = false →
      containsSub fenceTag (lbrace :: (mid ++ [rbrace])) = false →
      parseJson (lbrace :: (mid ++ [rbrace])) = some j →
      jsField j nodesKey = some (Json.arr ns) →
      jsField j edgesKey = some (Json.arr es) →
      processGeminiOutput
          (pre ++ '\n' :: (fenceJsonTag ++ '\n' ::
            ((lbrace :: (mid ++ [rbrace])) ++ '\n' :: (fenceTag ++ '\n' :: post))))
          [] [] queries =
        (sanitizeGraph ns es).map
          (fun p => ⟨⟨p.1, p.2⟩, [], queries, trimStr pre, []⟩) := by
  intro pre mid post queries j ns es h1 h2 h3 h4 h5
  have hiso := isolate_fenced pre mid post h1 h2
  simp only [processGeminiOutput,
    show processChunks [] = Except.ok ([], []) from rfl,
    show processSupports [] [] [] = Except.ok ([], []) from rfl,
    hiso, narrowBraces_object mid, h3, shapeFields_of_arrays j ns es h4 h5]
  rcases hsg : sanitizeGraph ns es with e | pr
  · simp [hsg, Except.map]
  · obtain ⟨cn, ce⟩ := pr
    simp [hsg, Except.map]

/-- Claim C8, counterexample to the claim as stated ("regardless of the
content of the preamble"): the input below has exactly the template shape
`<preamble>\n<json fence>\n<validJSON>\n<fence>\n<postamble>` with
preamble `<json fence>\n\x7b"nodes":[],"edges":[]\x7d\n<fence>` (itself a
complete fenced block), validJSON a one-node graph, and empty postamble.
The earliest-fence match picks the preamble's block, so the pipeline
returns the EMPTY graph rather than the sanitized one-node graph encoded
by the valid JSON. -/
theorem claim8_counterexample :
    processGeminiOutput
        (toChars "```json\n\x7b\"nodes\":[],\"edges\":[]\x7d\n```\n```json\n\x7b\"nodes\":[\x7b\"id\":\"1\"\x7d],\"edges\":[]\x7d\n```\n")
        [] [] [] =
      Except.ok ⟨⟨[], []⟩, [], [], [], []⟩ ∧
    sanitizeGraph [Json.obj [(idKey, Json.str (toChars "1"))]] [] =
      Except.ok ([Json.obj [(idKey, Json.str (toChars "1"))]], []) ∧
    ([] : List Json) ≠ [Json.obj [(idKey, Json.str (toChars "1"))]] :=
  ⟨rfl, rfl, by decide⟩

/-- Claim C8 witness: a fence-free preamble and postamble around a valid
empty-graph JSON body; the pipeline output equals the sanitized graph
with the trimmed preamble as summary. -/
theorem claim8_witness :
    processGeminiOutput
        (toChars "Here is a summary." ++ '\n' :: (fenceJsonTag ++ '\n' ::
          ((lbrace :: (toChars "\"nodes\":[],\"edges\":[]" ++ [rbrace])) ++ '\n' ::
            (fenceTag ++ '\n' :: toChars "Thanks!")))) [] [] [] =
      (sanitizeGraph [] []).map
        (fun p => ⟨⟨p.1, p.2⟩, [], [], trimStr (toChars "Here is a summary."), []⟩) :=
  claim8_fenced_roundtrip (toChars "Here is a summary.")
    (toChars "\"nodes\":[],\"edges\":[]") (toChars "Thanks!") []
    (Json.obj [(nodesKey, Json.arr []), (edgesKey, Json.arr [])]) [] []
    (by decide) (by decide) (by rfl) (by rfl) (by rfl)
